import Mathlib

/-!
# Gabor wavelet generator: a shallow embedding of `wavelet.go` and `main.go`

The development has three layers.

* `GoFloat` is the number model.  Go computes with IEEE-754 binary floating
  point; here a finite value is an exact real (rounding is not modelled)
  while the special values that decide the edge-case behaviour of the program
  are kept: the two signed zeros, the two infinities and NaN, with the IEEE
  rules for them.  `float32` and `float64`
  values share the type; overflow and underflow are modelled where they
  change the class of a value the program goes on to use, in `math.Pow` and
  in the narrowing of the standard deviation.
* `gabor`, `waveletSigma`, `rowUnit`, `wavelet` follow `wavelet.go` line by
  line.  The matrix is a list of rows, a slice index outside the slice is the
  run-time fault `Fault.indexOutOfRange`, and the goroutines are run one
  after the other in the order they are started.
* `saveToFile` follows `main.go`; the file is the text written so far.

Two variants of `wavelet` serve the statements about the units of work:
`waveletScheduled` runs them in a given order, `waveletLogged` records the
cells they assign.
-/

noncomputable section

namespace Gabor

/-! ## Number model -/

/-- Values of the Go types `float64` and `float32`: a finite value (with
`fin 0` standing for `+0`), the negative zero, the two infinities, and NaN. -/
inductive GoFloat where
  | fin (r : ℝ)
  | negZero
  | posInf
  | negInf
  | nan

namespace GoFloat

/-- Sign bit of a value (`true` for negative); NaN is given `false`. -/
def signBit : GoFloat → Bool
  | fin r => decide (r < 0)
  | negZero => true
  | posInf => false
  | negInf => true
  | nan => false

/-- Real number carried by a finite value; `0` for the others. -/
def toReal : GoFloat → ℝ
  | fin r => r
  | _ => 0

/-- Holds of NaN only. -/
def isNaN : GoFloat → Bool
  | nan => true
  | _ => false

/-- Holds of the two infinities. -/
def isInf : GoFloat → Bool
  | posInf => true
  | negInf => true
  | _ => false

/-- Holds of the two zeros. -/
def isZero : GoFloat → Bool
  | fin r => decide (r = 0)
  | negZero => true
  | _ => false

/-- Holds of the finite values, the zeros included. -/
def isFinite : GoFloat → Bool
  | fin _ => true
  | negZero => true
  | _ => false

/-- Zero with the given sign bit. -/
def zeroS (s : Bool) : GoFloat := if s then negZero else fin 0

/-- Infinity with the given sign bit. -/
def infS (s : Bool) : GoFloat := if s then negInf else posInf

/-- Finite result `r` of an operation; `s` is the sign bit to use when the
result is a zero. -/
def finS (s : Bool) (r : ℝ) : GoFloat := if r = 0 then zeroS s else fin r

/-- Unary minus. -/
def neg : GoFloat → GoFloat
  | fin r => finS true (-r)
  | negZero => fin 0
  | posInf => negInf
  | negInf => posInf
  | nan => nan

/-- Product `a * b`: NaN when an operand is NaN or for zero times infinity,
otherwise the sign is the exclusive or of the signs. -/
def mul (a b : GoFloat) : GoFloat :=
  if a.isNaN || b.isNaN then nan
  else if a.isInf || b.isInf then
    (if a.isZero || b.isZero then nan else infS (xor a.signBit b.signBit))
  else finS (xor a.signBit b.signBit) (a.toReal * b.toReal)

/-- Quotient `a / b`: NaN when an operand is NaN and for `0/0` and
`inf/inf`; a non-zero value over a zero is an infinity. -/
def div (a b : GoFloat) : GoFloat :=
  if a.isNaN || b.isNaN then nan
  else if a.isInf then (if b.isInf then nan else infS (xor a.signBit b.signBit))
  else if b.isInf then zeroS (xor a.signBit b.signBit)
  else if b.isZero then
    (if a.isZero then nan else infS (xor a.signBit b.signBit))
  else finS (xor a.signBit b.signBit) (a.toReal / b.toReal)

/-- Sum `a + b`: infinities of opposite sign give NaN; a zero sum is `+0`
unless both operands are `-0` (round to nearest). -/
def add (a b : GoFloat) : GoFloat :=
  if a.isNaN || b.isNaN then nan
  else if a.isInf then
    (if b.isInf && (a.signBit != b.signBit) then nan else a)
  else if b.isInf then b
  else finS (a.signBit && b.signBit) (a.toReal + b.toReal)

/-- Difference `a - b`. -/
def sub (a b : GoFloat) : GoFloat := add a (neg b)

instance : Neg GoFloat := ⟨neg⟩
instance : Mul GoFloat := ⟨mul⟩
instance : Div GoFloat := ⟨div⟩
instance : Add GoFloat := ⟨add⟩
instance : Sub GoFloat := ⟨sub⟩

/-- The function `math.Exp`. -/
def Exp : GoFloat → GoFloat
  | fin r => fin (Real.exp r)
  | negZero => fin 1
  | posInf => posInf
  | negInf => fin 0
  | nan => nan

/-- The function `math.Cos`; the cosine of an infinity is NaN. -/
def Cos : GoFloat → GoFloat
  | fin r => fin (Real.cos r)
  | negZero => fin 1
  | _ => nan

/-- The function `math.Sin`; `Sin(±0) = ±0`, the sine of an infinity is NaN. -/
def Sin : GoFloat → GoFloat
  | fin r => fin (Real.sin r)
  | negZero => negZero
  | _ => nan

/-- The function `math.Sqrt`; NaN below zero, `Sqrt(±0) = ±0`. -/
def Sqrt : GoFloat → GoFloat
  | fin r => if r < 0 then nan else fin (Real.sqrt r)
  | negZero => negZero
  | posInf => posInf
  | negInf => nan
  | nan => nan

/-- The function `math.Log`; `Log(±0) = -Inf`, NaN below zero. -/
def Log : GoFloat → GoFloat
  | fin r => if r < 0 then nan else if r = 0 then negInf else fin (Real.log r)
  | negZero => negInf
  | posInf => posInf
  | negInf => nan
  | nan => nan

/-- The call `math.Pow(2, y)`, the only use of `math.Pow` in the program:
`Pow(2, ±0) = 1`, `Pow(2, +Inf) = +Inf`, `Pow(2, -Inf) = 0`.  The result
overflows to `+Inf` from `y = 1024` on and underflows to `0` up to
`y = -1075`, half the least positive `float64` being `2^-1075`. -/
def Pow2 : GoFloat → GoFloat
  | fin r => if 1024 ≤ r then posInf else if r ≤ -1075 then fin 0 else fin ((2 : ℝ) ^ r)
  | negZero => fin 1
  | posInf => posInf
  | negInf => fin 0
  | nan => nan

/-- The constant `math.Pi`. -/
def Pi : GoFloat := fin Real.pi

/-- Conversion `float64(n)` of an `int`. -/
def ofInt (n : Int) : GoFloat := fin (n : ℝ)

/-- Conversion `float64(v)` of a `float32`: exact. -/
def float64 (v : GoFloat) : GoFloat := v

/-- Conversion `float32(v)` of a `float64` that is NaN or of absolute value
at most one, as the result of `gabor` is: such a value cannot overflow, the
conversion only rounds it, and rounding is not modelled. -/
def float32 (v : GoFloat) : GoFloat := v

/-- Conversion `float32(v)` of an arbitrary `float64`, as applied to the
standard deviation: a value of absolute value `2^128 - 2^103` or more
overflows to an infinity, and one of absolute value `2^-150` or less
underflows to a zero, with the sign of the value; in between the conversion
only rounds. -/
def narrow32 : GoFloat → GoFloat
  | fin r =>
    if 2 ^ 128 - 2 ^ 103 ≤ |r| then infS (decide (r < 0))
    else if |r| ≤ 1 / 2 ^ 150 then zeroS (decide (r < 0))
    else fin r
  | negZero => negZero
  | posInf => posInf
  | negInf => negInf
  | nan => nan

/-- Reciprocal, with `1/±0 = ±Inf` and `1/±Inf = ±0`; used to reason about
quotients. -/
def inv : GoFloat → GoFloat
  | fin r => if r = 0 then posInf else fin r⁻¹
  | negZero => negInf
  | posInf => fin 0
  | negInf => negZero
  | nan => nan

end GoFloat

open GoFloat

/-! ## `wavelet.go` -/

/-- The function `gabor` of `wavelet.go`: value of the wavelet at the pixel
`(x, y)` of the plane. -/
def gabor (gamma theta lambda sigma phi : GoFloat) (x y : Int) : GoFloat :=
  -- Cast to 64-bit floating points
  let gamma64 := float64 gamma
  let theta64 := float64 theta
  let lambda64 := float64 lambda
  let sigma64 := float64 sigma
  let phi64 := float64 phi
  let x64 := ofInt x
  let y64 := ofInt y
  -- Calculate intermediate values
  let xPrime := x64 * Cos theta64 + y64 * Sin theta64
  let yPrime := fin (-1) * x64 * Sin theta64 + y64 * Cos theta64
  -- Calculate the gaussian component
  let a := Exp ((x64 * x64 + gamma64 * gamma64 * yPrime * yPrime) / (fin (-2) * sigma64 * sigma64))
  -- Calculate the sinusoidal component
  let b := Cos (((fin 2 * Pi * xPrime) / lambda64) + phi64)
  -- Multiply the gaussian and sinusoidal components
  let g := a * b
  -- Cast to 32-bits and return
  float32 g

/-- Standard deviation computed at the head of `wavelet` (lines 64-65). -/
def waveletSigma (beta lambda : GoFloat) : GoFloat :=
  let twoPowBeta := Pow2 (float64 beta)
  narrow32 (float64 lambda * ((fin 1 / Pi) * Sqrt (Log (fin 2) / fin 2)
    * ((twoPowBeta + fin 1) / (twoPowBeta - fin 2))))

/-- Run-time faults that end the program. -/
inductive Fault where
  | indexOutOfRange
  | negativeLen
  | fatal
  deriving DecidableEq

/-- The loop `for k := 0; k < n; k++ { body }` over a state, stopping at the
first fault. -/
def forLoop {σ ε : Type} (n : Nat) (body : Nat → σ → Except ε σ) (s : σ) : Except ε σ :=
  match n with
  | 0 => .ok s
  | k + 1 =>
    match forLoop k body s with
    | .ok s1 => body k s1
    | .error e => .error e

/-- A value of type `[][]float32`: the list of its rows. -/
abbrev Grid := List (List GoFloat)

/-- The read `matrix[i][j]`, `none` when an index is out of range. -/
def cellAt {α : Type} (matrix : List (List α)) (i j : Nat) : Option α :=
  match matrix[i]? with
  | none => none
  | some row => row[j]?

/-- The assignment `matrix[i][j] = v`. -/
def setCell (matrix : Grid) (i j : Nat) (v : GoFloat) : Except Fault Grid :=
  match matrix[i]? with
  | none => .error .indexOutOfRange
  | some row =>
    if j < row.length then .ok (matrix.set i (row.set j v)) else .error .indexOutOfRange

/-- Allocation of the matrix (lines 69-72): `height` rows, each made of
`width` zeros; `make` faults on a negative length. -/
def makeMatrix (width height : Int) : Except Fault Grid :=
  if height < 0 then .error .negativeLen
  else
    forLoop height.toNat
      (fun row matrix =>
        if width < 0 then .error .negativeLen
        else .ok (matrix.set row (List.replicate width.toNat (fin 0))))
      (List.replicate height.toNat [])

/-- Body of the goroutine started for `j` (lines 85-97). -/
def rowUnit (gamma theta lambda sigma phi : GoFloat) (width : Int) (j : Nat) (y : Int)
    (matrix : Grid) : Except Fault Grid :=
  -- Iterate over every pixel in the current row
  forLoop width.toNat
    (fun i matrix =>
      -- Horizontally centre the wavelet within the matrix
      let x := (i : Int) - Int.tdiv width 2
      -- Calculate the value of the current pixel
      setCell matrix i j (gabor gamma theta lambda sigma phi x y))
    matrix

/-- The function `wavelet` of `wavelet.go`.  The goroutines are run in the
order of `j`; a fault in one of them ends the program, so that no matrix is
returned. -/
def wavelet (beta gamma theta lambda phi : GoFloat) (width height : Int) : Except Fault Grid :=
  -- Calculate the standard deviation of the wavelet
  let sigma := waveletSigma beta lambda
  -- Create empty matrix to store the wavelet
  match makeMatrix width height with
  | .error e => .error e
  | .ok matrix =>
    forLoop height.toNat
      (fun j matrix =>
        -- Vertically centre the wavelet within the matrix
        let y := (j : Int) - Int.tdiv height 2
        rowUnit gamma theta lambda sigma phi width j y matrix)
      matrix

/-! ## `main.go` -/

/-- Outcome of `saveToFile`: the text of the file at `path` when the file
was created, and the fault that ended the program, if any. -/
structure SaveResult where
  file : Option String
  fault : Option Fault
  deriving DecidableEq

/-- The function `saveToFile` of `main.go`.  `fmtF v` is `fmt.Sprintf("%f", v)`
and `createOk` tells whether `os.Create(path)` succeeds; the writes
themselves succeed (their errors are discarded by the program). -/
def saveToFile {α : Type} (fmtF : α → String) (createOk : Bool) (wavelet : List (List α)) :
    SaveResult :=
  if !createOk then ⟨none, some .fatal⟩
  else
    let rows := wavelet.length
    match wavelet[0]? with
    | none => ⟨some "", some .indexOutOfRange⟩
    | some row0 =>
      let cols := row0.length
      let written : Except (String × Fault) String :=
        forLoop rows
          (fun j out =>
            match forLoop cols
                (fun i out =>
                  match cellAt wavelet i j with
                  | none => .error (out, Fault.indexOutOfRange)
                  | some v => .ok (out ++ (fmtF v ++ ",")))
                out with
            | .error e => .error e
            | .ok out => .ok (out ++ "\n"))
          ""
      match written with
      | .ok out => ⟨some out, none⟩
      | .error (out, f) => ⟨some out, some f⟩

/-- Rendering `%f` of a float whose value is the integer `n`, as in
`3.000000`; used to run `saveToFile` on concrete matrices. -/
def fmtInt (n : Int) : String := toString n ++ ".000000"

/-! ## Predicates and formulas used in the statements -/

/-- The value `a` is finite and carries the real number `r`. -/
def HasVal (a : GoFloat) (r : ℝ) : Prop := a.isFinite = true ∧ a.toReal = r

/-- The matrix has `h` rows of `w` cells each. -/
def Shaped {α : Type} (m : List (List α)) (h w : Nat) : Prop :=
  m.length = h ∧ ∀ r ∈ m, r.length = w

/-- The formula of the specification for the kernel: with
`xPrime = x*cos(theta) + y*sin(theta)` and
`yPrime = -x*sin(theta) + y*cos(theta)`, the product of the envelope
`exp((x^2 + gamma^2 * yPrime^2) / (-2 * sigma^2))` and of the carrier
`cos(2*pi*xPrime/lambda + phi)`. -/
def gaborSpec (gamma theta lambda sigma phi : GoFloat) (x y : Int) : GoFloat :=
  let xPrime := ofInt x * Cos theta + ofInt y * Sin theta
  let yPrime := (-(ofInt x)) * Sin theta + ofInt y * Cos theta
  let a := Exp ((ofInt x * ofInt x + (gamma * gamma) * (yPrime * yPrime))
    / (fin (-2) * (sigma * sigma)))
  let b := Cos (fin 2 * Pi * xPrime / lambda + phi)
  a * b

/-- The formula of the specification for the standard deviation, a real
number: `lambda * (1/pi) * sqrt(ln(2)/2) * (p+1)/(p-2)` with `p = 2^beta`. -/
def sigmaFormula (beta lambda : ℝ) : ℝ :=
  lambda * (1 / Real.pi) * Real.sqrt (Real.log 2 / 2) * ((2 : ℝ) ^ beta + 1)
    / ((2 : ℝ) ^ beta - 2)

/-- The real number `v` is zero or lies strictly between the thresholds of
underflow and of overflow of `float32`. -/
def InFloat32Range (v : ℝ) : Prop :=
  v = 0 ∨ (1 / 2 ^ 150 < |v| ∧ |v| < 2 ^ 128 - 2 ^ 103)

/-- Real number of the standard deviation for `beta = 2`, `lambda = 50`. -/
def sigmaDefault : ℝ := 50 * ((1 / Real.pi) * Real.sqrt (Real.log 2 / 2) * (5 / 2))

/-! ## Schedules and write logs -/

/-- The units of work run to completion one after the other in the order
`order`, each `j` of the list being the goroutine started for `j`. -/
def runUnits (gamma theta lambda sigma phi : GoFloat) (width height : Int) :
    List Nat → Grid → Except Fault Grid
  | [], matrix => .ok matrix
  | j :: rest, matrix =>
    match rowUnit gamma theta lambda sigma phi width j ((j : Int) - Int.tdiv height 2) matrix with
    | .ok matrix1 => runUnits gamma theta lambda sigma phi width height rest matrix1
    | .error e => .error e

/-- The function `wavelet` with its goroutines completing in the order
`order` instead of the order in which they are started. -/
def waveletScheduled (order : List Nat) (beta gamma theta lambda phi : GoFloat)
    (width height : Int) : Except Fault Grid :=
  let sigma := waveletSigma beta lambda
  match makeMatrix width height with
  | .error e => .error e
  | .ok matrix => runUnits gamma theta lambda sigma phi width height order matrix

/-- The assignment `matrix[i][j] = v` on a state that also records, in
order, the index pairs (outer, inner) of the cells assigned so far. -/
def setCellLogged (s : Grid × List (Nat × Nat)) (i j : Nat) (v : GoFloat) :
    Except Fault (Grid × List (Nat × Nat)) :=
  match setCell s.1 i j v with
  | .ok matrix => .ok (matrix, s.2 ++ [(i, j)])
  | .error e => .error e

/-- Body of the goroutine started for `j`, recording its writes. -/
def rowUnitLogged (gamma theta lambda sigma phi : GoFloat) (width : Int) (j : Nat) (y : Int)
    (s : Grid × List (Nat × Nat)) : Except Fault (Grid × List (Nat × Nat)) :=
  forLoop width.toNat
    (fun i s =>
      let x := (i : Int) - Int.tdiv width 2
      setCellLogged s i j (gabor gamma theta lambda sigma phi x y))
    s

/-- The function `wavelet`, recording its writes: the result is the matrix
together with the index pairs of the cells assigned, in order. -/
def waveletLogged (beta gamma theta lambda phi : GoFloat) (width height : Int) :
    Except Fault (Grid × List (Nat × Nat)) :=
  let sigma := waveletSigma beta lambda
  match makeMatrix width height with
  | .error e => .error e
  | .ok matrix =>
    forLoop height.toNat
      (fun j s =>
        let y := (j : Int) - Int.tdiv height 2
        rowUnitLogged gamma theta lambda sigma phi width j y s)
      (matrix, [])

/-- Cell written by the iteration `i` of the unit of work `j`: the
subscripts of `matrix[i][j]`, outer index first. -/
def writtenCell (j i : Nat) : Nat × Nat := (i, j)

/-! ## Text of the file -/

/-- Concatenation of `f 0`, ..., `f (n - 1)`. -/
def concatRange (n : Nat) (f : Nat → String) : String :=
  match n with
  | 0 => ""
  | k + 1 => concatRange k f ++ f k

/-- Text with `n` lines of `n` tokens, the token `i` of the line `j` being
the rendering of `cell i j` followed by a comma, each line ended by a
newline. -/
def csvText {α : Type} (fmtF : α → String) (n : Nat) (cell : Nat → Nat → α) : String :=
  concatRange n (fun j => concatRange n (fun i => fmtF (cell i j) ++ ",") ++ "\n")

/-! ## Reflection -/

/-- The values `a` and `b` are opposite up to the sign of a zero: both NaN,
infinities of opposite signs, or finite with opposite real numbers. -/
def IsNegOf : GoFloat → GoFloat → Prop
  | fin r, fin s => r = -s
  | fin r, negZero => r = 0
  | negZero, fin s => s = 0
  | negZero, negZero => True
  | posInf, negInf => True
  | negInf, posInf => True
  | nan, nan => True
  | _, _ => False

/-! # Theorems -/

/-! ## Loops -/

theorem forLoop_succ {σ ε : Type} (n : Nat) (body : Nat → σ → Except ε σ) (s : σ) :
    forLoop (n + 1) body s =
      match forLoop n body s with
      | .ok s1 => body n s1
      | .error e => .error e := rfl

/-- Loop invariant rule: an invariant kept by every iteration, none of which
faults, holds of the state the loop ends in. -/
theorem forLoop_inv {σ ε : Type} (Inv : Nat → σ → Prop) (body : Nat → σ → Except ε σ)
    (n : Nat) (s : σ) (h0 : Inv 0 s)
    (hstep : ∀ k s1, k < n → Inv k s1 → ∃ s2, body k s1 = .ok s2 ∧ Inv (k + 1) s2) :
    ∃ s2, forLoop n body s = .ok s2 ∧ Inv n s2 := by
  induction n with
  | zero => exact ⟨s, rfl, h0⟩
  | succ n ih =>
    obtain ⟨s1, h1, hi⟩ := ih (fun k s1 hk => hstep k s1 (Nat.lt_succ_of_lt hk))
    obtain ⟨s2, h2, hi2⟩ := hstep n s1 (Nat.lt_succ_self n) hi
    exact ⟨s2, by rw [forLoop_succ, h1]; exact h2, hi2⟩

/-- A loop whose iteration `k` faults, after `k` iterations that did not,
ends in that fault. -/
theorem forLoop_fault {σ ε : Type} (body : Nat → σ → Except ε σ) (n k : Nat) (s s1 : σ) (e : ε)
    (hk : k < n) (hpre : forLoop k body s = .ok s1) (hbody : body k s1 = .error e) :
    forLoop n body s = .error e := by
  induction n with
  | zero => exact absurd hk (Nat.not_lt_zero k)
  | succ n ih =>
    rcases Nat.lt_succ_iff_lt_or_eq.mp hk with h | h
    · rw [forLoop_succ, ih h]
    · subst h
      rw [forLoop_succ, hpre]; exact hbody

/-! ## Shape of a matrix and single writes -/

theorem shaped_row {α : Type} {m : List (List α)} {h w i : Nat} (hs : Shaped m h w) (hi : i < h) :
    ∃ r, m[i]? = some r ∧ r.length = w := by
  have hlt : i < m.length := by rw [hs.1]; exact hi
  exact ⟨m[i], List.getElem?_eq_getElem hlt, hs.2 _ (List.getElem_mem hlt)⟩

theorem shaped_row_none {α : Type} {m : List (List α)} {h w i : Nat} (hs : Shaped m h w)
    (hi : h ≤ i) : m[i]? = none := by
  apply List.getElem?_eq_none; rw [hs.1]; exact hi

theorem shaped_cellAt_isSome {α : Type} {m : List (List α)} {h w i j : Nat} (hs : Shaped m h w)
    (hi : i < h) (hj : j < w) : ∃ v, cellAt m i j = some v := by
  obtain ⟨r, hr, hl⟩ := shaped_row hs hi
  have hlt : j < r.length := by rw [hl]; exact hj
  exact ⟨r[j], by simp [cellAt, hr, List.getElem?_eq_getElem hlt]⟩

theorem shaped_cellAt_none {α : Type} {m : List (List α)} {h w i j : Nat} (hs : Shaped m h w)
    (hij : h ≤ i ∨ w ≤ j) : cellAt m i j = none := by
  by_cases hi : i < h
  · obtain ⟨r, hr, hl⟩ := shaped_row hs hi
    have hj : w ≤ j := by omega
    simp [cellAt, hr, List.getElem?_eq_none, hl, hj]
  · simp [cellAt, shaped_row_none hs (Nat.le_of_not_lt hi)]

/-- A write inside the matrix succeeds, keeps the shape, stores the value
and leaves every other cell as it was. -/
theorem setCell_ok {m : Grid} {h w i j : Nat} (v : GoFloat) (hs : Shaped m h w)
    (hi : i < h) (hj : j < w) :
    ∃ m1, setCell m i j v = .ok m1 ∧ Shaped m1 h w ∧ cellAt m1 i j = some v ∧
      ∀ a b, (a ≠ i ∨ b ≠ j) → cellAt m1 a b = cellAt m a b := by
  obtain ⟨r, hr, hl⟩ := shaped_row hs hi
  have hjr : j < r.length := by rw [hl]; exact hj
  have hlt : i < m.length := by rw [hs.1]; exact hi
  refine ⟨m.set i (r.set j v), by simp [setCell, hr, hjr], ⟨by simp [hs.1], ?_⟩, ?_, ?_⟩
  · intro r1 hr1
    rcases List.mem_or_eq_of_mem_set hr1 with h1 | h1
    · exact hs.2 r1 h1
    · rw [h1, List.length_set, hl]
  · simp [cellAt, List.getElem?_set, hlt, hjr]
  · intro a b hab
    by_cases ha : a = i
    · subst ha
      have hb : b ≠ j := by tauto
      simp [cellAt, List.getElem?_set, hlt, hr, Ne.symm hb]
    · simp [cellAt, List.getElem?_set, Ne.symm ha]

/-- A write outside the matrix is an index fault. -/
theorem setCell_fault {m : Grid} {h w i j : Nat} (v : GoFloat) (hs : Shaped m h w)
    (hij : h ≤ i ∨ w ≤ j) : setCell m i j v = .error .indexOutOfRange := by
  by_cases hi : i < h
  · obtain ⟨r, hr, hl⟩ := shaped_row hs hi
    have hj : ¬ j < r.length := by omega
    simp [setCell, hr, hj]
  · simp [setCell, shaped_row_none hs (Nat.le_of_not_lt hi)]

/-! ## Allocation -/

theorem shaped_replicate (h w : Nat) :
    Shaped (List.replicate h (List.replicate w (fin 0))) h w := by
  refine ⟨by simp, ?_⟩
  intro r hr
  rw [List.eq_of_mem_replicate hr]; simp

theorem cellAt_replicate {h w i j : Nat} (hi : i < h) (hj : j < w) :
    cellAt (List.replicate h (List.replicate w (fin 0))) i j = some (fin 0) := by
  simp [cellAt, List.getElem?_replicate, hi, hj]

/-- With lengths that are not negative the allocation gives the `height`
by `width` matrix of zeros. -/
theorem makeMatrix_ok (width height : Nat) :
    makeMatrix width height
      = .ok (List.replicate height (List.replicate width (fin 0))) := by
  have key : ∀ n, n ≤ height →
      forLoop n
        (fun row (matrix : Grid) =>
          if (width : Int) < 0 then (Except.error Fault.negativeLen : Except Fault Grid)
          else .ok (matrix.set row (List.replicate width (fin 0))))
        (List.replicate height [])
      = .ok (List.replicate n (List.replicate width (fin 0)) ++ List.replicate (height - n) []) := by
    intro n
    induction n with
    | zero => intro _; simp [forLoop]
    | succ n ih =>
      intro hn
      rw [forLoop_succ, ih (Nat.le_of_succ_le hn)]
      have h1 : ¬ ((width : Int) < 0) := by omega
      simp only [h1, if_false]
      congr 1
      apply List.ext_getElem?
      intro k
      simp only [List.getElem?_set, List.getElem?_append, List.getElem?_replicate,
        List.length_append, List.length_replicate]
      by_cases hk : k = n
      · subst hk; simp; omega
      · by_cases hk2 : k < n
        · have : k < n + 1 := by omega
          simp [hk2, this, Ne.symm hk]
        · have h3 : ¬ k < n + 1 := by omega
          simp [hk2, h3, Ne.symm hk]
          by_cases h4 : k < height
          · rw [if_pos (by omega), if_pos (by omega)]
          · rw [if_neg (by omega), if_neg (by omega)]
  have h0 : ¬ ((height : Int) < 0) := by omega
  simp only [makeMatrix, h0, if_false, Int.toNat_ofNat]
  rw [key height (Nat.le_refl _)]
  simp

/-! ## One unit of work -/

/-- A unit of work whose writes all fall inside the matrix: it ends without
a fault, keeps the shape, fills the cells `(i, j)` for `i < width` and
leaves the others as they were. -/
theorem rowUnit_ok (gamma theta lambda sigma phi : GoFloat) {m : Grid} {h w j : Nat} (y : Int)
    (hs : Shaped m h w) (hw : w ≤ h) (hj : j < w) :
    ∃ m1, rowUnit gamma theta lambda sigma phi w j y m = .ok m1 ∧ Shaped m1 h w ∧
      (∀ i, i < w → cellAt m1 i j
        = some (gabor gamma theta lambda sigma phi ((i : Int) - Int.tdiv w 2) y)) ∧
      (∀ a b, b ≠ j → cellAt m1 a b = cellAt m a b) := by
  have key := forLoop_inv
    (fun k (m1 : Grid) => Shaped m1 h w ∧
      (∀ i, i < k → cellAt m1 i j
        = some (gabor gamma theta lambda sigma phi ((i : Int) - Int.tdiv w 2) y)) ∧
      (∀ a b, b ≠ j → cellAt m1 a b = cellAt m a b))
    (fun i (matrix : Grid) =>
      setCell matrix i j (gabor gamma theta lambda sigma phi ((i : Int) - Int.tdiv w 2) y))
    w m ⟨hs, by intro i hi; omega, fun _ _ _ => rfl⟩
    (by
      intro k m1 hk ⟨hs1, hdone, hrest⟩
      obtain ⟨m2, h2, hs2, hv, hothers⟩ :=
        setCell_ok (gabor gamma theta lambda sigma phi ((k : Int) - Int.tdiv w 2) y) hs1
          (Nat.lt_of_lt_of_le hk hw) hj
      refine ⟨m2, h2, hs2, ?_, ?_⟩
      · intro i hi
        rcases Nat.lt_succ_iff_lt_or_eq.mp hi with h3 | h3
        · rw [hothers i j (Or.inl (Nat.ne_of_lt h3))]; exact hdone i h3
        · rw [h3]; exact hv
      · intro a b hb
        rw [hothers a b (Or.inr hb)]; exact hrest a b hb)
  simpa [rowUnit] using key

/-- A unit of work on a matrix with fewer rows than `width`, or whose `j` is
not below the length of the rows, ends in an index fault. -/
theorem rowUnit_fault (gamma theta lambda sigma phi : GoFloat) {m : Grid} {h w j : Nat} (y : Int)
    (hs : Shaped m h w) (hw : 0 < w) (hbad : h < w ∨ w ≤ j) :
    rowUnit gamma theta lambda sigma phi w j y m = .error .indexOutOfRange := by
  simp only [rowUnit, Int.toNat_ofNat]
  by_cases hj : w ≤ j
  · exact forLoop_fault _ w 0 m m _ hw rfl (setCell_fault _ hs (Or.inr hj))
  · have hhw : h < w := by omega
    obtain ⟨m1, h1, hs1⟩ := forLoop_inv (fun _ (m1 : Grid) => Shaped m1 h w)
      (fun i (matrix : Grid) =>
        setCell matrix i j (gabor gamma theta lambda sigma phi ((i : Int) - Int.tdiv w 2) y))
      h m hs
      (by
        intro k m1 hk hs1
        obtain ⟨m2, h2, hs2, _⟩ :=
          setCell_ok (gabor gamma theta lambda sigma phi ((k : Int) - Int.tdiv w 2) y) hs1 hk
            (Nat.lt_of_not_le hj)
        exact ⟨m2, h2, hs2⟩)
    exact forLoop_fault _ w h m m1 _ hhw h1 (setCell_fault _ hs1 (Or.inl (Nat.le_refl h)))

/-! ## The whole generator -/

/-- On a square grid `wavelet` returns: the matrix is `n` by `n` and the
cell with outer index `i` and inner index `j` holds the value of `gabor` at
`x = i - n/2`, `y = j - n/2`. -/
theorem wavelet_square (beta gamma theta lambda phi : GoFloat) (n : Nat) :
    ∃ m, wavelet beta gamma theta lambda phi n n = .ok m ∧ Shaped m n n ∧
      ∀ i j, i < n → j < n → cellAt m i j
        = some (gabor gamma theta lambda (waveletSigma beta lambda) phi
            ((i : Int) - Int.tdiv n 2) ((j : Int) - Int.tdiv n 2)) := by
  obtain ⟨m, hm, hs, hc⟩ := forLoop_inv
    (fun k (m1 : Grid) => Shaped m1 n n ∧
      ∀ i j, i < n → j < k → cellAt m1 i j
        = some (gabor gamma theta lambda (waveletSigma beta lambda) phi
            ((i : Int) - Int.tdiv n 2) ((j : Int) - Int.tdiv n 2)))
    (fun j (matrix : Grid) =>
      rowUnit gamma theta lambda (waveletSigma beta lambda) phi n j
        ((j : Int) - Int.tdiv n 2) matrix)
    n (List.replicate n (List.replicate n (fin 0)))
    ⟨shaped_replicate n n, by intro i j _ hj; omega⟩
    (by
      intro k m1 hk ⟨hs1, hdone⟩
      obtain ⟨m2, h2, hs2, hv, hothers⟩ :=
        rowUnit_ok gamma theta lambda (waveletSigma beta lambda) phi
          ((k : Int) - Int.tdiv n 2) hs1 (Nat.le_refl n) hk
      refine ⟨m2, h2, hs2, ?_⟩
      intro i j hi hj
      rcases Nat.lt_succ_iff_lt_or_eq.mp hj with h3 | h3
      · rw [hothers i j (Nat.ne_of_lt h3)]; exact hdone i j hi h3
      · rw [h3]; exact hv i hi)
  refine ⟨m, ?_, hs, fun i j hi hj => hc i j hi hj⟩
  simp only [wavelet, makeMatrix_ok, Int.toNat_ofNat]
  exact hm

/-- On a grid that is not square `wavelet` ends in an index fault. -/
theorem wavelet_nonsquare (beta gamma theta lambda phi : GoFloat) {w h : Nat}
    (hw : 0 < w) (hh : 0 < h) (hne : w ≠ h) :
    wavelet beta gamma theta lambda phi w h = .error .indexOutOfRange := by
  simp only [wavelet, makeMatrix_ok, Int.toNat_ofNat]
  by_cases hlt : h < w
  · exact forLoop_fault _ h 0 _ _ _ hh rfl
      (rowUnit_fault gamma theta lambda _ phi _ (shaped_replicate h w) hw (Or.inl hlt))
  · have hwh : w < h := by omega
    obtain ⟨m1, h1, hs1⟩ := forLoop_inv (fun _ (m1 : Grid) => Shaped m1 h w)
      (fun j (matrix : Grid) =>
        rowUnit gamma theta lambda (waveletSigma beta lambda) phi w j
          ((j : Int) - Int.tdiv h 2) matrix)
      w (List.replicate h (List.replicate w (fin 0))) (shaped_replicate h w)
      (by
        intro k m1 hk hs1
        obtain ⟨m2, h2, hs2, _⟩ :=
          rowUnit_ok gamma theta lambda (waveletSigma beta lambda) phi
            ((k : Int) - Int.tdiv h 2) hs1 (Nat.le_of_lt hwh) hk
        exact ⟨m2, h2, hs2⟩)
    exact forLoop_fault _ h w _ m1 _ hwh h1
      (rowUnit_fault gamma theta lambda _ phi _ hs1 hw (Or.inr (Nat.le_refl w)))

/-! ## Arithmetic of the number model -/


theorem gf_mul_def (a b : GoFloat) : a * b = GoFloat.mul a b := rfl
theorem gf_div_def (a b : GoFloat) : a / b = GoFloat.div a b := rfl
theorem gf_add_def (a b : GoFloat) : a + b = GoFloat.add a b := rfl
theorem gf_sub_def (a b : GoFloat) : a - b = GoFloat.add a (GoFloat.neg b) := rfl
theorem gf_neg_def (a : GoFloat) : -a = GoFloat.neg a := rfl

/-- Two values with the same class, sign bit and real number are the same. -/
theorem goFloat_ext {a b : GoFloat} (h1 : a.isNaN = b.isNaN) (h2 : a.isInf = b.isInf)
    (h3 : a.signBit = b.signBit) (h4 : a.toReal = b.toReal) : a = b := by
  cases a <;> cases b <;> simp_all [isNaN, isInf, signBit, toReal]

theorem sign_mul_real {r s : ℝ} (h : r * s ≠ 0) :
    decide (r * s < 0) = xor (decide (r < 0)) (decide (s < 0)) := by
  have hr : r ≠ 0 := left_ne_zero_of_mul h
  have hs : s ≠ 0 := right_ne_zero_of_mul h
  rcases lt_or_gt_of_ne hr with h1 | h1 <;> rcases lt_or_gt_of_ne hs with h2 | h2
  · have := mul_pos_of_neg_of_neg h1 h2
    simp [h1, h2, not_lt.mpr this.le]
  · have := mul_neg_of_neg_of_pos h1 h2
    simp [h1, not_lt.mpr h2.le, this]
  · have := mul_neg_of_pos_of_neg h1 h2
    simp [h2, not_lt.mpr h1.le, this]
  · have := mul_pos h1 h2
    simp [not_lt.mpr h1.le, not_lt.mpr h2.le, not_lt.mpr this.le]

theorem isNaN_mul (a b : GoFloat) :
    (a * b).isNaN = (a.isNaN || b.isNaN || (a.isInf && b.isZero) || (a.isZero && b.isInf)) := by
  cases a <;> cases b <;>
    simp [gf_mul_def, GoFloat.mul, isNaN, isInf, isZero, signBit, toReal, finS, zeroS, infS] <;>
    split_ifs <;> simp_all

theorem isInf_mul (a b : GoFloat) :
    (a * b).isInf = (!(a * b).isNaN && (a.isInf || b.isInf)) := by
  cases a <;> cases b <;>
    simp [gf_mul_def, GoFloat.mul, isNaN, isInf, isZero, signBit, toReal, finS, zeroS, infS] <;>
    split_ifs <;> simp_all

theorem isZero_mul (a b : GoFloat) :
    (a * b).isZero = (!(a * b).isNaN && (a.isZero || b.isZero)) := by
  cases a <;> cases b <;>
    simp [gf_mul_def, GoFloat.mul, isNaN, isInf, isZero, signBit, toReal, finS, zeroS, infS] <;>
    split_ifs <;> simp_all

theorem toReal_mul (a b : GoFloat) : (a * b).toReal = a.toReal * b.toReal := by
  cases a <;> cases b <;>
    simp [gf_mul_def, GoFloat.mul, isNaN, isInf, isZero, signBit, toReal, finS, zeroS, infS] <;>
    split_ifs <;> simp_all

theorem signBit_mul (a b : GoFloat) :
    (a * b).signBit = (!(a * b).isNaN && xor a.signBit b.signBit) := by
  cases a <;> cases b <;>
    simp [gf_mul_def, GoFloat.mul, isNaN, isInf, isZero, signBit, toReal, finS, zeroS, infS] <;>
    split_ifs <;> simp_all [sign_mul_real]

/-- The product is associative, special values included. -/
theorem mul_assoc_go (a b c : GoFloat) : a * b * c = a * (b * c) := by
  apply goFloat_ext
  · simp only [isNaN_mul, isInf_mul, isZero_mul]
    generalize a.isNaN = x1; generalize b.isNaN = x2; generalize c.isNaN = x3
    generalize a.isInf = y1; generalize b.isInf = y2; generalize c.isInf = y3
    generalize a.isZero = z1; generalize b.isZero = z2; generalize c.isZero = z3
    revert x1 x2 x3 y1 y2 y3 z1 z2 z3
    decide
  · simp only [isNaN_mul, isInf_mul, isZero_mul]
    generalize a.isNaN = x1; generalize b.isNaN = x2; generalize c.isNaN = x3
    generalize a.isInf = y1; generalize b.isInf = y2; generalize c.isInf = y3
    generalize a.isZero = z1; generalize b.isZero = z2; generalize c.isZero = z3
    revert x1 x2 x3 y1 y2 y3 z1 z2 z3
    decide
  · simp only [isNaN_mul, isInf_mul, isZero_mul, signBit_mul]
    generalize a.isNaN = x1; generalize b.isNaN = x2; generalize c.isNaN = x3
    generalize a.isInf = y1; generalize b.isInf = y2; generalize c.isInf = y3
    generalize a.isZero = z1; generalize b.isZero = z2; generalize c.isZero = z3
    generalize a.signBit = s1; generalize b.signBit = s2; generalize c.signBit = s3
    revert x1 x2 x3 y1 y2 y3 z1 z2 z3 s1 s2 s3
    decide
  · simp only [toReal_mul, mul_assoc]

/-- Division is multiplication by the reciprocal. -/
theorem div_eq_mul_inv_go (a b : GoFloat) : a / b = a * GoFloat.inv b := by
  cases a <;> cases b <;>
    simp [gf_div_def, GoFloat.div, gf_mul_def, GoFloat.mul, GoFloat.inv, isNaN, isInf, isZero, signBit, toReal, finS, zeroS,
      infS] <;>
    split_ifs <;> simp_all [isNaN, isInf, isZero, signBit, toReal, div_eq_mul_inv]


/-! ## Finite values and the real numbers they carry -/


theorem hasVal_iff {a : GoFloat} {r : ℝ} : HasVal a r ↔ a = fin r ∨ (a = negZero ∧ r = 0) := by
  cases a <;> simp [HasVal, isFinite, toReal, eq_comm]

theorem hasVal_fin (r : ℝ) : HasVal (fin r) r := ⟨rfl, rfl⟩

theorem hasVal_negZero : HasVal negZero 0 := ⟨rfl, rfl⟩

theorem hasVal_finS (s : Bool) (r : ℝ) : HasVal (finS s r) r := by
  unfold finS zeroS
  split_ifs with h1 h2 <;> simp [HasVal, isFinite, toReal, h1]

theorem hasVal_ofInt (n : Int) : HasVal (ofInt n) (n : ℝ) := hasVal_fin _

theorem hasVal_mul {a b : GoFloat} {r s : ℝ} (ha : HasVal a r) (hb : HasVal b s) :
    HasVal (a * b) (r * s) := by
  rcases hasVal_iff.mp ha with rfl | ⟨rfl, rfl⟩ <;> rcases hasVal_iff.mp hb with rfl | ⟨rfl, rfl⟩ <;>
    simpa [gf_mul_def, GoFloat.mul, isNaN, isInf, toReal] using hasVal_finS _ _

theorem hasVal_add {a b : GoFloat} {r s : ℝ} (ha : HasVal a r) (hb : HasVal b s) :
    HasVal (a + b) (r + s) := by
  rcases hasVal_iff.mp ha with rfl | ⟨rfl, rfl⟩ <;> rcases hasVal_iff.mp hb with rfl | ⟨rfl, rfl⟩ <;>
    simpa [gf_add_def, GoFloat.add, isNaN, isInf, toReal] using hasVal_finS _ _

theorem hasVal_neg {a : GoFloat} {r : ℝ} (ha : HasVal a r) : HasVal (-a) (-r) := by
  rcases hasVal_iff.mp ha with rfl | ⟨rfl, rfl⟩
  · exact hasVal_finS _ _
  · simpa [gf_neg_def, GoFloat.neg] using hasVal_fin 0

theorem hasVal_sub {a b : GoFloat} {r s : ℝ} (ha : HasVal a r) (hb : HasVal b s) :
    HasVal (a - b) (r - s) := by
  rw [gf_sub_def, ← gf_add_def, ← gf_neg_def]; exact hasVal_add ha (hasVal_neg hb)

theorem hasVal_div {a b : GoFloat} {r s : ℝ} (ha : HasVal a r) (hb : HasVal b s) (hs : s ≠ 0) :
    HasVal (a / b) (r / s) := by
  rcases hasVal_iff.mp ha with rfl | ⟨rfl, rfl⟩ <;> rcases hasVal_iff.mp hb with rfl | ⟨rfl, h⟩
  · simpa [gf_div_def, GoFloat.div, isNaN, isInf, isZero, toReal, hs] using hasVal_finS _ _
  · exact absurd h hs
  · simpa [gf_div_def, GoFloat.div, isNaN, isInf, isZero, toReal, hs] using hasVal_finS _ _
  · exact absurd h hs

theorem hasVal_Cos {a : GoFloat} {r : ℝ} (ha : HasVal a r) : Cos a = fin (Real.cos r) := by
  rcases hasVal_iff.mp ha with rfl | ⟨rfl, rfl⟩ <;> simp [Cos]

theorem hasVal_Sin {a : GoFloat} {r : ℝ} (ha : HasVal a r) : HasVal (Sin a) (Real.sin r) := by
  rcases hasVal_iff.mp ha with rfl | ⟨rfl, rfl⟩
  · exact hasVal_fin _
  · simpa [Sin] using hasVal_negZero

theorem hasVal_Exp {a : GoFloat} {r : ℝ} (ha : HasVal a r) : Exp a = fin (Real.exp r) := by
  rcases hasVal_iff.mp ha with rfl | ⟨rfl, rfl⟩ <;> simp [Exp]

/-- The product of two `fin` values is the `fin` of the product when the
first factor is positive. -/
theorem fin_mul_fin_of_pos {e c : ℝ} (he : 0 < e) : fin e * fin c = fin (e * c) := by
  by_cases hc : c = 0
  · subst hc
    simp [gf_mul_def, GoFloat.mul, isNaN, isInf, toReal, finS, zeroS, signBit, not_lt.mpr he.le]
  · simp [gf_mul_def, GoFloat.mul, isNaN, isInf, toReal, finS, he.ne', hc]


/-- Value of `gabor` on finite arguments with `lambda` and `sigma` other
than zero: the real-number formula of the Gabor function as the program
computes it. -/
theorem gabor_hasVal {gamma theta lambda sigma phi : GoFloat} {g t l s p : ℝ} (x y : Int)
    (hg : HasVal gamma g) (ht : HasVal theta t) (hlam : HasVal lambda l) (hsig : HasVal sigma s)
    (hp : HasVal phi p) (hl : l ≠ 0) (hs : s ≠ 0) :
    gabor gamma theta lambda sigma phi x y
      = fin (Real.exp ((x * x + g * g * (-1 * x * Real.sin t + y * Real.cos t)
              * (-1 * x * Real.sin t + y * Real.cos t)) / (-2 * s * s))
          * Real.cos (2 * Real.pi * (x * Real.cos t + y * Real.sin t) / l + p)) := by
  have hx := hasVal_ofInt x
  have hy := hasVal_ofInt y
  have hc : HasVal (Cos theta) (Real.cos t) := by rw [hasVal_Cos ht]; exact hasVal_fin _
  have hsn := hasVal_Sin ht
  have hxp := hasVal_add (hasVal_mul hx hc) (hasVal_mul hy hsn)
  have hyp := hasVal_add (hasVal_mul (hasVal_mul (hasVal_fin (-1)) hx) hsn) (hasVal_mul hy hc)
  have hden : -2 * s * s ≠ 0 := by
    have := mul_self_ne_zero.mpr hs
    intro h; apply this; nlinarith
  have ha := hasVal_Exp (hasVal_div
    (hasVal_add (hasVal_mul hx hx) (hasVal_mul (hasVal_mul (hasVal_mul hg hg) hyp) hyp))
    (hasVal_mul (hasVal_mul (hasVal_fin (-2)) hsig) hsig) hden)
  have hb := hasVal_Cos (hasVal_add (hasVal_div
    (hasVal_mul (hasVal_mul (hasVal_fin 2) (hasVal_fin Real.pi)) hxp) hlam hl) hp)
  simp only [gabor, float64, float32, Pi]
  rw [ha, hb, fin_mul_fin_of_pos (Real.exp_pos _)]

theorem neg_one_mul_ofInt (x : Int) : fin (-1) * ofInt x = -(ofInt x) := by
  by_cases h : x = 0 <;>
    simp [gf_mul_def, GoFloat.mul, gf_neg_def, GoFloat.neg, ofInt, isNaN, isInf, toReal, signBit, finS, h]

theorem hasVal_eq_fin {a : GoFloat} {r : ℝ} (ha : HasVal a r) (hr : r ≠ 0) : a = fin r := by
  rcases hasVal_iff.mp ha with h | ⟨_, h⟩
  · exact h
  · exact absurd h hr

theorem hasVal_Sqrt {a : GoFloat} {r : ℝ} (ha : HasVal a r) (hr : 0 < r) :
    HasVal (Sqrt a) (Real.sqrt r) := by
  rw [hasVal_eq_fin ha hr.ne']
  simpa [Sqrt, not_lt.mpr hr.le] using hasVal_fin (Real.sqrt r)

theorem hasVal_Log_two : HasVal (Log (fin 2)) (Real.log 2) := by
  have h : ¬ ((2 : ℝ) < 0) := by norm_num
  simpa [Log, h] using hasVal_fin (Real.log 2)

theorem Pow2_fin {b : ℝ} (h1 : -1075 < b) (h2 : b < 1024) :
    Pow2 (fin b) = fin ((2 : ℝ) ^ b) := by
  simp [Pow2, not_le.mpr h1, not_le.mpr h2]

theorem hasVal_Pow2 {b : ℝ} (h1 : -1075 < b) (h2 : b < 1024) :
    HasVal (Pow2 (fin b)) ((2 : ℝ) ^ b) := by
  rw [Pow2_fin h1 h2]; exact hasVal_fin _

/-- Within the range of `float32` the narrowing keeps the real number. -/
theorem hasVal_narrow32 {a : GoFloat} {v : ℝ} (ha : HasVal a v) (hv : InFloat32Range v) :
    HasVal (narrow32 a) v := by
  rcases hasVal_iff.mp ha with rfl | ⟨rfl, rfl⟩
  · rcases hv with rfl | ⟨h1, h2⟩
    · have h0 : ¬ ((2 : ℝ) ^ 128 - 2 ^ 103 ≤ |(0 : ℝ)|) := by rw [abs_zero]; norm_num
      have h1 : |(0 : ℝ)| ≤ 1 / 2 ^ 150 := by rw [abs_zero]; positivity
      simp only [narrow32]
      rw [if_neg h0, if_pos h1]
      simpa [zeroS] using hasVal_fin 0
    · simp only [narrow32]
      rw [if_neg (not_le.mpr h2), if_neg (not_le.mpr h1)]
      exact hasVal_fin v
  · exact hasVal_negZero


/-- The constant factor `(1/pi) * sqrt(ln(2)/2)` of the standard deviation. -/
theorem sigma_const_hasVal :
    HasVal ((fin 1 / Pi) * Sqrt (Log (fin 2) / fin 2))
      ((1 / Real.pi) * Real.sqrt (Real.log 2 / 2)) := by
  have hlog : 0 < Real.log 2 / 2 := by
    have := Real.log_pos (by norm_num : (1 : ℝ) < 2); linarith
  exact hasVal_mul (hasVal_div (hasVal_fin 1) (hasVal_fin Real.pi) Real.pi_ne_zero)
    (hasVal_Sqrt (hasVal_div hasVal_Log_two (hasVal_fin 2) (by norm_num)) hlog)

theorem sigma_const_pos : 0 < (1 / Real.pi) * Real.sqrt (Real.log 2 / 2) := by
  have hlog : 0 < Real.log 2 / 2 := by
    have := Real.log_pos (by norm_num : (1 : ℝ) < 2); linarith
  exact mul_pos (one_div_pos.mpr Real.pi_pos) (Real.sqrt_pos.mpr hlog)

theorem sigma_const_bounds :
    0.18 < (1 / Real.pi) * Real.sqrt (Real.log 2 / 2) ∧
    (1 / Real.pi) * Real.sqrt (Real.log 2 / 2) < 0.19 := by
  have hp1 := Real.pi_gt_d6
  have hp2 := Real.pi_lt_d6
  have hL1 := Real.log_two_gt_d9
  have hL2 := Real.log_two_lt_d9
  have hs1 : (0.588705 : ℝ) < Real.sqrt (Real.log 2 / 2) := by
    rw [Real.lt_sqrt (by norm_num)]; norm_num; linarith
  have hs2 : Real.sqrt (Real.log 2 / 2) < (0.5887051 : ℝ) := by
    rw [Real.sqrt_lt' (by norm_num)]; norm_num; linarith
  have hpos := Real.pi_pos
  have e : (1 / Real.pi) * Real.sqrt (Real.log 2 / 2)
      = Real.sqrt (Real.log 2 / 2) / Real.pi := by
    rw [one_div, inv_mul_eq_div]
  rw [e]
  constructor
  · rw [lt_div_iff₀ hpos]; linarith
  · rw [div_lt_iff₀ hpos]; linarith

/-- Standard deviation for `beta` between the thresholds of `math.Pow` and
other than `1`, when the value is in the range of `float32`. -/
theorem waveletSigma_hasVal {lambda : GoFloat} (b l : ℝ) (hlam : HasVal lambda l)
    (hb1 : -1075 < b) (hb2 : b < 1024) (hb : (2 : ℝ) ^ b - 2 ≠ 0)
    (hv : InFloat32Range
      (l * ((1 / Real.pi) * Real.sqrt (Real.log 2 / 2)
        * (((2 : ℝ) ^ b + 1) / ((2 : ℝ) ^ b - 2))))) :
    HasVal (waveletSigma (fin b) lambda)
      (l * ((1 / Real.pi) * Real.sqrt (Real.log 2 / 2) * (((2 : ℝ) ^ b + 1) / ((2 : ℝ) ^ b - 2)))) := by
  simp only [waveletSigma, float64]
  exact hasVal_narrow32 (hasVal_mul hlam (hasVal_mul sigma_const_hasVal
    (hasVal_div (hasVal_add (hasVal_Pow2 hb1 hb2) (hasVal_fin 1))
      (hasVal_sub (hasVal_Pow2 hb1 hb2) (hasVal_fin 2)) hb))) hv

/-- For `beta = 2` and `lambda` between `1/1000` and `1000` the standard
deviation is `lambda * c * (5/2)`, a positive number in the range of
`float32`. -/
theorem waveletSigma_two {l : ℝ} (h1 : 1 / 1000 ≤ l) (h2 : l ≤ 1000) :
    waveletSigma (fin 2) (fin l)
      = fin (l * ((1 / Real.pi) * Real.sqrt (Real.log 2 / 2) * (5 / 2))) ∧
    0 < l * ((1 / Real.pi) * Real.sqrt (Real.log 2 / 2) * (5 / 2)) := by
  obtain ⟨hc1, hc2⟩ := sigma_const_bounds
  have hl : 0 < l := by linarith
  have hpos : 0 < l * ((1 / Real.pi) * Real.sqrt (Real.log 2 / 2) * (5 / 2)) := by
    have := sigma_const_pos
    positivity
  have e : l * ((1 / Real.pi) * Real.sqrt (Real.log 2 / 2)
      * (((2 : ℝ) ^ (2 : ℝ) + 1) / ((2 : ℝ) ^ (2 : ℝ) - 2)))
      = l * ((1 / Real.pi) * Real.sqrt (Real.log 2 / 2) * (5 / 2)) := by
    rw [Real.rpow_two]; norm_num
  have hlo : 1 / 10000 < l * ((1 / Real.pi) * Real.sqrt (Real.log 2 / 2) * (5 / 2)) := by
    nlinarith
  have hhi : l * ((1 / Real.pi) * Real.sqrt (Real.log 2 / 2) * (5 / 2)) < 1000 := by
    nlinarith
  have hv : InFloat32Range
      (l * ((1 / Real.pi) * Real.sqrt (Real.log 2 / 2)
        * (((2 : ℝ) ^ (2 : ℝ) + 1) / ((2 : ℝ) ^ (2 : ℝ) - 2)))) := by
    rw [e]
    right
    rw [abs_of_pos hpos]
    constructor
    · refine lt_trans ?_ hlo
      norm_num
    · refine lt_trans hhi ?_
      norm_num
  have h := waveletSigma_hasVal 2 l (hasVal_fin l) (by norm_num) (by norm_num)
    (by rw [Real.rpow_two]; norm_num) hv
  rw [e] at h
  exact ⟨hasVal_eq_fin h hpos.ne', hpos⟩

theorem waveletSigma_default : waveletSigma (fin 2) (fin 50) = fin sigmaDefault :=
  (waveletSigma_two (l := 50) (by norm_num) (by norm_num)).1

theorem sigmaDefault_bounds : 23.4238 < sigmaDefault ∧ sigmaDefault < 23.4239 := by
  have hp1 := Real.pi_gt_d6
  have hp2 := Real.pi_lt_d6
  have hL1 := Real.log_two_gt_d9
  have hL2 := Real.log_two_lt_d9
  have hs1 : (0.588705 : ℝ) < Real.sqrt (Real.log 2 / 2) := by
    rw [Real.lt_sqrt (by norm_num)]; norm_num; linarith
  have hs2 : Real.sqrt (Real.log 2 / 2) < (0.5887051 : ℝ) := by
    rw [Real.sqrt_lt' (by norm_num)]; norm_num; linarith
  have hpos := Real.pi_pos
  have e : sigmaDefault = 125 * Real.sqrt (Real.log 2 / 2) / Real.pi := by
    unfold sigmaDefault; field_simp; ring
  rw [e]
  constructor
  · rw [lt_div_iff₀ hpos]; linarith
  · rw [div_lt_iff₀ hpos]; linarith

/-! ## The centre of the grid -/


theorem isZero_ofInt_zero : (ofInt 0).isZero = true := by simp [ofInt, isZero]

theorem isFinite_Cos {a : GoFloat} (h : a.isFinite = true) : (Cos a).isFinite = true := by
  cases a <;> simp_all [Cos, isFinite]

theorem isFinite_Sin {a : GoFloat} (h : a.isFinite = true) : (Sin a).isFinite = true := by
  cases a <;> simp_all [Sin, isFinite]

theorem isFinite_of_isZero {a : GoFloat} (h : a.isZero = true) : a.isFinite = true := by
  cases a <;> simp_all [isZero, isFinite]

theorem isZero_mul_left {a b : GoFloat} (ha : a.isZero = true) (hb : b.isFinite = true) :
    (a * b).isZero = true := by
  rw [isZero_mul, isNaN_mul]
  cases a <;> cases b <;> simp_all [isZero, isFinite, isNaN, isInf]

theorem isZero_mul_right {a b : GoFloat} (ha : a.isFinite = true) (hb : b.isZero = true) :
    (a * b).isZero = true := by
  rw [isZero_mul, isNaN_mul]
  cases a <;> cases b <;> simp_all [isZero, isFinite, isNaN, isInf]

theorem isFinite_mul {a b : GoFloat} (ha : a.isFinite = true) (hb : b.isFinite = true) :
    (a * b).isFinite = true := by
  cases a <;> cases b <;>
    simp_all [gf_mul_def, GoFloat.mul, isFinite, isNaN, isInf, finS, zeroS] <;> split_ifs <;> simp

theorem isZero_add {a b : GoFloat} (ha : a.isZero = true) (hb : b.isZero = true) :
    (a + b).isZero = true := by
  cases a <;> cases b <;>
    simp_all [gf_add_def, GoFloat.add, isZero, isNaN, isInf, toReal, signBit, finS, zeroS]

theorem isZero_div {a b : GoFloat} (ha : a.isZero = true) (hb0 : b.isZero = false)
    (hbn : b.isNaN = false) : (a / b).isZero = true := by
  cases a <;> cases b <;>
    simp_all [gf_div_def, GoFloat.div, isZero, isNaN, isInf, toReal, signBit, finS, zeroS] <;>
    split_ifs <;> simp

theorem not_isZero_mul {a b : GoFloat} (ha0 : a.isZero = false) (han : a.isNaN = false)
    (hb0 : b.isZero = false) (hbn : b.isNaN = false) :
    (a * b).isZero = false ∧ (a * b).isNaN = false := by
  rw [isZero_mul, isNaN_mul]
  simp [ha0, han, hb0, hbn]

theorem Exp_of_isZero {a : GoFloat} (ha : a.isZero = true) : Exp a = fin 1 := by
  cases a <;> simp_all [Exp, isZero]

theorem Cos_zero_add {a : GoFloat} (ha : a.isZero = true) (b : GoFloat) :
    Cos (a + b) = Cos b := by
  cases a <;> cases b <;>
    simp_all [gf_add_def, GoFloat.add, Cos, isZero, isNaN, isInf, toReal, signBit, finS, zeroS] <;>
    split_ifs <;> simp_all

theorem div_zero_zero {a b : GoFloat} (ha : a.isZero = true) (hb : b.isZero = true) :
    a / b = nan := by
  cases a <;> cases b <;> simp_all [gf_div_def, GoFloat.div, isZero, isNaN, isInf]

theorem nan_add (b : GoFloat) : nan + b = nan := by simp [gf_add_def, GoFloat.add, isNaN]

theorem nan_mul (b : GoFloat) : nan * b = nan := by simp [gf_mul_def, GoFloat.mul, isNaN]

theorem mul_nan (a : GoFloat) : a * nan = nan := by simp [gf_mul_def, GoFloat.mul, isNaN]

theorem Cos_nan : Cos nan = nan := rfl

theorem Exp_nan : Exp nan = nan := rfl

theorem one_mul_Cos (b : GoFloat) : fin 1 * Cos b = Cos b := by
  cases b <;> simp [Cos, gf_mul_def, GoFloat.mul, isNaN, isInf, toReal, signBit, finS, zeroS, isZero]
  intro h
  simp [h]


/-- At the origin `gabor` is the cosine of the phase, for finite `gamma`
and `theta` and for `lambda` and `sigma` other than zero and NaN. -/
theorem gabor_origin {gamma theta lambda sigma : GoFloat} (phi : GoFloat)
    (hg : gamma.isFinite = true) (ht : theta.isFinite = true)
    (hl0 : lambda.isZero = false) (hln : lambda.isNaN = false)
    (hs0 : sigma.isZero = false) (hsn : sigma.isNaN = false) :
    gabor gamma theta lambda sigma phi 0 0 = Cos phi := by
  have hz := isZero_ofInt_zero
  have hc := isFinite_Cos ht
  have hs := isFinite_Sin ht
  have hxp : (ofInt 0 * Cos theta + ofInt 0 * Sin theta).isZero = true :=
    isZero_add (isZero_mul_left hz hc) (isZero_mul_left hz hs)
  have hyp : (fin (-1) * ofInt 0 * Sin theta + ofInt 0 * Cos theta).isZero = true :=
    isZero_add (isZero_mul_left (isZero_mul_right rfl hz) hs) (isZero_mul_left hz hc)
  have hnum : (ofInt 0 * ofInt 0 + gamma * gamma
      * (fin (-1) * ofInt 0 * Sin theta + ofInt 0 * Cos theta)
      * (fin (-1) * ofInt 0 * Sin theta + ofInt 0 * Cos theta)).isZero = true :=
    isZero_add (isZero_mul_left hz (isFinite_of_isZero hz))
      (isZero_mul_right (isFinite_mul (isFinite_mul hg hg) (isFinite_of_isZero hyp)) hyp)
  have h2 : (fin (-2) : GoFloat).isZero = false ∧ (fin (-2) : GoFloat).isNaN = false := by
    simp [isZero, isNaN]
  have hd1 := not_isZero_mul h2.1 h2.2 hs0 hsn
  have hden := not_isZero_mul hd1.1 hd1.2 hs0 hsn
  have h2pi : (fin 2 * Pi).isFinite = true := isFinite_mul rfl rfl
  have harg : (fin 2 * Pi * (ofInt 0 * Cos theta + ofInt 0 * Sin theta) / lambda).isZero = true :=
    isZero_div (isZero_mul_right h2pi hxp) hl0 hln
  simp only [gabor, float64, float32]
  rw [Exp_of_isZero (isZero_div hnum hden.1 hden.2), Cos_zero_add harg, one_mul_Cos]

/-- At the origin `gabor` is NaN when `lambda` is a zero: the argument of
the carrier is `0/0`. -/
theorem gabor_origin_lambda_zero (gamma sigma phi : GoFloat) {theta lambda : GoFloat}
    (ht : theta.isFinite = true) (hl : lambda.isZero = true) :
    gabor gamma theta lambda sigma phi 0 0 = nan := by
  have hz := isZero_ofInt_zero
  have hxp : (ofInt 0 * Cos theta + ofInt 0 * Sin theta).isZero = true :=
    isZero_add (isZero_mul_left hz (isFinite_Cos ht)) (isZero_mul_left hz (isFinite_Sin ht))
  have h2pi : (fin 2 * Pi).isFinite = true := isFinite_mul rfl rfl
  simp only [gabor, float64, float32]
  rw [div_zero_zero (isZero_mul_right h2pi hxp) hl, nan_add, Cos_nan, mul_nan]

/-- At the origin `gabor` is NaN when `sigma` is a zero: the exponent of the
envelope is `0/0`. -/
theorem gabor_origin_sigma_zero (lambda phi : GoFloat) {gamma theta sigma : GoFloat}
    (hg : gamma.isFinite = true) (ht : theta.isFinite = true) (hs : sigma.isZero = true) :
    gabor gamma theta lambda sigma phi 0 0 = nan := by
  have hz := isZero_ofInt_zero
  have hyp : (fin (-1) * ofInt 0 * Sin theta + ofInt 0 * Cos theta).isZero = true :=
    isZero_add (isZero_mul_left (isZero_mul_right rfl hz) (isFinite_Sin ht))
      (isZero_mul_left hz (isFinite_Cos ht))
  have hnum : (ofInt 0 * ofInt 0 + gamma * gamma
      * (fin (-1) * ofInt 0 * Sin theta + ofInt 0 * Cos theta)
      * (fin (-1) * ofInt 0 * Sin theta + ofInt 0 * Cos theta)).isZero = true :=
    isZero_add (isZero_mul_left hz (isFinite_of_isZero hz))
      (isZero_mul_right (isFinite_mul (isFinite_mul hg hg) (isFinite_of_isZero hyp)) hyp)
  have hden : (fin (-2) * sigma * sigma).isZero = true :=
    isZero_mul_right (isFinite_mul rfl (isFinite_of_isZero hs)) hs
  simp only [gabor, float64, float32]
  rw [div_zero_zero hnum hden, Exp_nan, nan_mul]

theorem add_nan (a : GoFloat) : a + nan = nan := by
  cases a <;> simp [gf_add_def, GoFloat.add, isNaN]

theorem nan_div (b : GoFloat) : nan / b = nan := by simp [gf_div_def, GoFloat.div, isNaN]

theorem isInf_mul_self {a : GoFloat} (h : a.isInf = true) : (a * a).isInf = true := by
  cases a <;> simp_all [gf_mul_def, GoFloat.mul, isInf, isNaN, isZero, infS, signBit]

theorem inf_mul_zero {a b : GoFloat} (ha : a.isInf = true) (hb : b.isZero = true) :
    a * b = nan := by
  cases a <;> cases b <;> simp_all [gf_mul_def, GoFloat.mul, isInf, isNaN, isZero]

/-- At the origin `gabor` is NaN when `gamma` is infinite: the exponent of
the envelope contains `Inf * 0`. -/
theorem gabor_origin_gamma_inf (lambda sigma phi : GoFloat) {gamma theta : GoFloat}
    (hg : gamma.isInf = true) (ht : theta.isFinite = true) :
    gabor gamma theta lambda sigma phi 0 0 = nan := by
  have hz := isZero_ofInt_zero
  have hyp : (fin (-1) * ofInt 0 * Sin theta + ofInt 0 * Cos theta).isZero = true :=
    isZero_add (isZero_mul_left (isZero_mul_right rfl hz) (isFinite_Sin ht))
      (isZero_mul_left hz (isFinite_Cos ht))
  simp only [gabor, float64, float32]
  rw [inf_mul_zero (isInf_mul_self hg) hyp, nan_mul, add_nan, nan_div, Exp_nan, nan_mul]

/-- At the origin `gabor` is NaN when `theta` is infinite: its cosine is NaN. -/
theorem gabor_origin_theta_inf (gamma lambda sigma phi : GoFloat) {theta : GoFloat}
    (ht : theta.isInf = true) :
    gabor gamma theta lambda sigma phi 0 0 = nan := by
  have hc : Cos theta = nan := by cases theta <;> simp_all [Cos, isInf]
  simp only [gabor, float64, float32]
  rw [hc, mul_nan, nan_add, mul_nan, nan_div, nan_add, Cos_nan, mul_nan]

/-! ## The degenerate bandwidth `beta = 1` -/

theorem pos_mul_posInf {c : ℝ} (hc : 0 < c) : fin c * posInf = posInf := by
  simp [gf_mul_def, GoFloat.mul, isNaN, isInf, isZero, signBit, infS, hc.ne', not_lt.mpr hc.le]

/-- With `beta = 1` and `lambda > 0` the standard deviation is `+Inf`. -/
theorem waveletSigma_beta_one {l : ℝ} (hl : 0 < l) : waveletSigma (fin 1) (fin l) = posInf := by
  have hp : Pow2 (fin 1) = fin 2 := by
    rw [Pow2_fin (by norm_num) (by norm_num), Real.rpow_one]
  have h1 : (fin 2 : GoFloat) + fin 1 = fin 3 := by
    simp [gf_add_def, GoFloat.add, isNaN, isInf, toReal, finS]; norm_num
  have h2 : (fin 2 : GoFloat) - fin 2 = fin 0 := by
    simp [gf_sub_def, GoFloat.add, GoFloat.neg, isNaN, isInf, toReal, finS, zeroS, signBit]
  have h3 : (fin 3 : GoFloat) / fin 0 = posInf := by
    simp [gf_div_def, GoFloat.div, isNaN, isInf, isZero, signBit, infS]
  simp only [waveletSigma, float64, hp, h1, h2, h3]
  rw [hasVal_eq_fin sigma_const_hasVal sigma_const_pos.ne', pos_mul_posInf sigma_const_pos,
    pos_mul_posInf hl]
  rfl

theorem Exp_div_negInf {a : GoFloat} {r : ℝ} (ha : HasVal a r) : Exp (a / negInf) = fin 1 := by
  rcases hasVal_iff.mp ha with rfl | ⟨rfl, rfl⟩ <;>
    simp [gf_div_def, GoFloat.div, isNaN, isInf, signBit, zeroS, Exp]
  split_ifs <;> simp [Exp]

/-- With an infinite standard deviation the envelope is `1` and `gabor` is
the carrier alone. -/
theorem gabor_sigma_posInf {gamma theta lambda phi : GoFloat} {g t l p : ℝ} (x y : Int)
    (hg : HasVal gamma g) (ht : HasVal theta t) (hlam : HasVal lambda l) (hp : HasVal phi p)
    (hl : l ≠ 0) :
    gabor gamma theta lambda posInf phi x y
      = fin (Real.cos (2 * Real.pi * (x * Real.cos t + y * Real.sin t) / l + p)) := by
  have hx := hasVal_ofInt x
  have hy := hasVal_ofInt y
  have hc : HasVal (Cos theta) (Real.cos t) := by rw [hasVal_Cos ht]; exact hasVal_fin _
  have hsn := hasVal_Sin ht
  have hxp := hasVal_add (hasVal_mul hx hc) (hasVal_mul hy hsn)
  have hyp := hasVal_add (hasVal_mul (hasVal_mul (hasVal_fin (-1)) hx) hsn) (hasVal_mul hy hc)
  have hnum := hasVal_add (hasVal_mul hx hx) (hasVal_mul (hasVal_mul (hasVal_mul hg hg) hyp) hyp)
  have hden : fin (-2) * posInf * posInf = negInf := by
    simp [gf_mul_def, GoFloat.mul, isNaN, isInf, isZero, signBit, infS]
  have hb := hasVal_Cos (hasVal_add (hasVal_div
    (hasVal_mul (hasVal_mul (hasVal_fin 2) (hasVal_fin Real.pi)) hxp) hlam hl) hp)
  simp only [gabor, float64, float32, Pi]
  rw [hden, Exp_div_negInf hnum, hb, fin_mul_fin_of_pos one_pos, one_mul]

/-- Cells of the matrix for `beta = 1`. -/
theorem wavelet_beta_one_cells {gamma theta phi : GoFloat} {g t p l : ℝ} (n : Nat)
    (hg : HasVal gamma g) (ht : HasVal theta t) (hp : HasVal phi p) (hl : 0 < l) :
    ∃ m, wavelet (fin 1) gamma theta (fin l) phi n n = .ok m ∧
      ∀ i j, i < n → j < n → cellAt m i j
        = some (fin (Real.cos (2 * Real.pi
            * ((((i : Int) - Int.tdiv n 2 : Int) : ℝ) * Real.cos t
                + (((j : Int) - Int.tdiv n 2 : Int) : ℝ) * Real.sin t) / l + p))) := by
  obtain ⟨m, hm, _, hc⟩ := wavelet_square (fin 1) gamma theta (fin l) phi n
  refine ⟨m, hm, ?_⟩
  intro i j hi hj
  rw [hc i j hi hj, waveletSigma_beta_one hl,
    gabor_sigma_posInf _ _ hg ht (hasVal_fin l) hp hl.ne']

/-! ## Order of the units of work -/

/-- Two matrices of the same shape with the same cells are the same. -/
theorem grid_ext {α : Type} {m1 m2 : List (List α)} {h w : Nat} (h1 : Shaped m1 h w)
    (h2 : Shaped m2 h w) (hc : ∀ i j, i < h → j < w → cellAt m1 i j = cellAt m2 i j) :
    m1 = m2 := by
  apply List.ext_getElem?
  intro i
  by_cases hi : i < h
  · obtain ⟨r1, hr1, hl1⟩ := shaped_row h1 hi
    obtain ⟨r2, hr2, hl2⟩ := shaped_row h2 hi
    rw [hr1, hr2]
    congr 1
    apply List.ext_getElem?
    intro j
    by_cases hj : j < w
    · have := hc i j hi hj
      simpa [cellAt, hr1, hr2] using this
    · rw [List.getElem?_eq_none (by omega), List.getElem?_eq_none (by omega)]
  · rw [shaped_row_none h1 (Nat.le_of_not_lt hi), shaped_row_none h2 (Nat.le_of_not_lt hi)]

/-- The units of work of a list of indices below `n`, run in the order of
the list on an `n` by `n` matrix: no fault, and every unit of the list has
filled its cells. -/
theorem runUnits_ok (gamma theta lambda sigma phi : GoFloat) (n : Nat) (order : List Nat)
    (hlt : ∀ j ∈ order, j < n) :
    ∀ m : Grid, Shaped m n n →
      ∃ m1, runUnits gamma theta lambda sigma phi n n order m = .ok m1 ∧ Shaped m1 n n ∧
        (∀ i j, i < n → j ∈ order → cellAt m1 i j
          = some (gabor gamma theta lambda sigma phi
              ((i : Int) - Int.tdiv n 2) ((j : Int) - Int.tdiv n 2))) ∧
        (∀ i j, j ∉ order → cellAt m1 i j = cellAt m i j) := by
  induction order with
  | nil =>
    intro m hs
    exact ⟨m, rfl, hs, by intro i j _ hj; simp at hj, fun _ _ _ => rfl⟩
  | cons j rest ih =>
    intro m hs
    have hj : j < n := hlt j (List.mem_cons_self j rest)
    obtain ⟨m1, h1, hs1, hv1, ho1⟩ :=
      rowUnit_ok gamma theta lambda sigma phi ((j : Int) - Int.tdiv n 2) hs (Nat.le_refl n) hj
    obtain ⟨m2, h2, hs2, hv2, ho2⟩ :=
      ih (fun k hk => hlt k (List.mem_cons_of_mem j hk)) m1 hs1
    refine ⟨m2, by simp only [runUnits, h1]; exact h2, hs2, ?_, ?_⟩
    · intro i k hi hk
      by_cases hkr : k ∈ rest
      · exact hv2 i k hi hkr
      · have hkj : k = j := by
          rcases List.mem_cons.mp hk with h | h
          · exact h
          · exact absurd h hkr
        rw [ho2 i k hkr, hkj]
        exact hv1 i hi
    · intro i k hk
      have hkr : k ∉ rest := fun h => hk (List.mem_cons_of_mem j h)
      have hkj : k ≠ j := fun h => hk (by rw [h]; exact List.mem_cons_self j rest)
      rw [ho2 i k hkr, ho1 i k hkj]

theorem runUnits_snoc (gamma theta lambda sigma phi : GoFloat) (width height : Int)
    (order : List Nat) (j : Nat) :
    ∀ m : Grid, runUnits gamma theta lambda sigma phi width height (order ++ [j]) m
      = match runUnits gamma theta lambda sigma phi width height order m with
        | .ok m1 =>
          rowUnit gamma theta lambda sigma phi width j ((j : Int) - Int.tdiv height 2) m1
        | .error e => .error e := by
  induction order with
  | nil =>
    intro m
    simp only [List.nil_append, runUnits]
    cases rowUnit gamma theta lambda sigma phi width j ((j : Int) - Int.tdiv height 2) m <;> rfl
  | cons k rest ih =>
    intro m
    simp only [List.cons_append, runUnits]
    cases rowUnit gamma theta lambda sigma phi width k ((k : Int) - Int.tdiv height 2) m with
    | error e => rfl
    | ok m1 => exact ih m1

/-- Run in the order in which they are started, the units of work give
`wavelet` itself, for every width and height. -/
theorem waveletScheduled_range (beta gamma theta lambda phi : GoFloat) (width height : Int) :
    waveletScheduled (List.range height.toNat) beta gamma theta lambda phi width height
      = wavelet beta gamma theta lambda phi width height := by
  have key : ∀ (k : Nat) (m : Grid),
      runUnits gamma theta lambda (waveletSigma beta lambda) phi width height (List.range k) m
        = forLoop k (fun j matrix =>
            rowUnit gamma theta lambda (waveletSigma beta lambda) phi width j
              ((j : Int) - Int.tdiv height 2) matrix) m := by
    intro k m
    induction k with
    | zero => rfl
    | succ k ih =>
      rw [List.range_succ, runUnits_snoc, ih, forLoop_succ]
      cases forLoop k (fun j matrix =>
        rowUnit gamma theta lambda (waveletSigma beta lambda) phi width j
          ((j : Int) - Int.tdiv height 2) matrix) m <;> rfl
  simp only [waveletScheduled, wavelet]
  cases makeMatrix width height with
  | error e => rfl
  | ok m => exact key _ m

/-! ## The writes of the units of work -/

theorem forLoop_fst {σ τ ε : Type} (n : Nat) (bodyL : Nat → σ × τ → Except ε (σ × τ))
    (body : Nat → σ → Except ε σ)
    (h : ∀ k s, (bodyL k s).map Prod.fst = body k s.1) (s : σ × τ) :
    (forLoop n bodyL s).map Prod.fst = forLoop n body s.1 := by
  induction n with
  | zero => rfl
  | succ n ih =>
    rw [forLoop_succ, forLoop_succ, ← ih]
    cases forLoop n bodyL s with
    | error e => rfl
    | ok s1 => exact h n s1

theorem setCellLogged_fst (s : Grid × List (Nat × Nat)) (i j : Nat) (v : GoFloat) :
    (setCellLogged s i j v).map Prod.fst = setCell s.1 i j v := by
  unfold setCellLogged
  cases setCell s.1 i j v <;> rfl

theorem rowUnitLogged_fst (gamma theta lambda sigma phi : GoFloat) (width : Int) (j : Nat)
    (y : Int) (s : Grid × List (Nat × Nat)) :
    (rowUnitLogged gamma theta lambda sigma phi width j y s).map Prod.fst
      = rowUnit gamma theta lambda sigma phi width j y s.1 :=
  forLoop_fst _ _ _ (fun _ s1 => setCellLogged_fst s1 _ _ _) s

/-- Without its record of the writes `waveletLogged` is `wavelet`. -/
theorem waveletLogged_fst (beta gamma theta lambda phi : GoFloat) (width height : Int) :
    (waveletLogged beta gamma theta lambda phi width height).map Prod.fst
      = wavelet beta gamma theta lambda phi width height := by
  simp only [waveletLogged, wavelet]
  cases makeMatrix width height with
  | error e => rfl
  | ok m =>
    exact forLoop_fst height.toNat
      (fun j s => rowUnitLogged gamma theta lambda (waveletSigma beta lambda) phi width j
        ((j : Int) - Int.tdiv height 2) s)
      (fun j matrix => rowUnit gamma theta lambda (waveletSigma beta lambda) phi width j
        ((j : Int) - Int.tdiv height 2) matrix)
      (fun j s1 => rowUnitLogged_fst gamma theta lambda (waveletSigma beta lambda) phi width j
        ((j : Int) - Int.tdiv height 2) s1) (m, [])

/-- The writes of one unit of work that stays inside the matrix: the cells
`writtenCell j i` for `i < width`, in order. -/
theorem rowUnitLogged_ok (gamma theta lambda sigma phi : GoFloat) {m : Grid} {h w j : Nat}
    (y : Int) (log : List (Nat × Nat)) (hs : Shaped m h w) (hw : w ≤ h) (hj : j < w) :
    ∃ m1, rowUnitLogged gamma theta lambda sigma phi w j y (m, log)
        = .ok (m1, log ++ (List.range w).map (writtenCell j)) ∧ Shaped m1 h w := by
  obtain ⟨s1, h1, hs1, hl1⟩ := forLoop_inv
    (fun k (s : Grid × List (Nat × Nat)) =>
      Shaped s.1 h w ∧ s.2 = log ++ (List.range k).map (writtenCell j))
    (fun i (s : Grid × List (Nat × Nat)) =>
      setCellLogged s i j (gabor gamma theta lambda sigma phi ((i : Int) - Int.tdiv w 2) y))
    w (m, log) ⟨hs, by simp⟩
    (by
      intro k s hk ⟨hs1, hl1⟩
      obtain ⟨m2, h2, hs2, _⟩ :=
        setCell_ok (gabor gamma theta lambda sigma phi ((k : Int) - Int.tdiv w 2) y) hs1
          (Nat.lt_of_lt_of_le hk hw) hj
      refine ⟨(m2, s.2 ++ [(k, j)]), by simp [setCellLogged, h2], hs2, ?_⟩
      simp [hl1, List.range_succ, writtenCell])
  refine ⟨s1.1, ?_, hs1⟩
  simp only [rowUnitLogged, Int.toNat_ofNat]
  rw [h1, ← hl1]

/-- The writes of `wavelet` on a square grid, in order. -/
theorem waveletLogged_square (beta gamma theta lambda phi : GoFloat) (n : Nat) :
    ∃ m, waveletLogged beta gamma theta lambda phi n n
        = .ok (m, (List.range n).flatMap (fun j => (List.range n).map (writtenCell j))) ∧
      wavelet beta gamma theta lambda phi n n = .ok m := by
  obtain ⟨s1, h1, hs1, hl1⟩ := forLoop_inv
    (fun k (s : Grid × List (Nat × Nat)) =>
      Shaped s.1 n n ∧ s.2 = (List.range k).flatMap (fun j => (List.range n).map (writtenCell j)))
    (fun j (s : Grid × List (Nat × Nat)) =>
      rowUnitLogged gamma theta lambda (waveletSigma beta lambda) phi n j
        ((j : Int) - Int.tdiv n 2) s)
    n (List.replicate n (List.replicate n (fin 0)), []) ⟨shaped_replicate n n, by simp⟩
    (by
      intro k s hk ⟨hs1, hl1⟩
      obtain ⟨m2, h2, hs2⟩ := rowUnitLogged_ok gamma theta lambda (waveletSigma beta lambda) phi
        ((k : Int) - Int.tdiv n 2) s.2 hs1 (Nat.le_refl n) hk
      refine ⟨_, h2, hs2, ?_⟩
      simp [hl1, List.range_succ])
  have hL : waveletLogged beta gamma theta lambda phi n n
      = .ok (s1.1, (List.range n).flatMap (fun j => (List.range n).map (writtenCell j))) := by
    simp only [waveletLogged, makeMatrix_ok, Int.toNat_ofNat]
    rw [h1, ← hl1]
  refine ⟨s1.1, hL, ?_⟩
  rw [← waveletLogged_fst, hL]
  rfl

/-- On a square grid the list of the writes has no repetition and holds
exactly the cells of the matrix. -/
theorem writes_square (n : Nat) :
    ((List.range n).flatMap (fun j => (List.range n).map (writtenCell j))).Nodup ∧
    ∀ a b, (a, b) ∈ (List.range n).flatMap (fun j => (List.range n).map (writtenCell j))
      ↔ a < n ∧ b < n := by
  constructor
  · rw [List.nodup_flatMap]
    refine ⟨?_, ?_⟩
    · intro j _
      exact (List.nodup_range n).map (fun i1 i2 h => by simpa [writtenCell] using h)
    · apply List.Pairwise.imp _ (List.nodup_range n)
      intro j1 j2 hne
      simp only [Function.onFun, List.Disjoint]
      intro c h1 h2
      simp only [List.mem_map, writtenCell] at h1 h2
      obtain ⟨i1, _, rfl⟩ := h1
      obtain ⟨i2, _, h⟩ := h2
      simp at h
      exact hne h.2.symm
  · intro a b
    simp only [List.mem_flatMap, List.mem_map, List.mem_range, writtenCell, Prod.mk.injEq]
    constructor
    · rintro ⟨j, hj, i, hi, rfl, rfl⟩
      exact ⟨hi, hj⟩
    · rintro ⟨ha, hb⟩
      exact ⟨b, hb, a, ha, rfl, rfl⟩

/-! ## Point reflection -/

theorem isNegOf_ofInt (x : Int) : IsNegOf (ofInt (-x)) (ofInt x) := by
  simp [IsNegOf, ofInt]

theorem isNegOf_neg (a : GoFloat) : IsNegOf a (-a) := by
  cases a <;> simp [IsNegOf, gf_neg_def, GoFloat.neg, finS, zeroS]
  split_ifs <;> simp_all [IsNegOf]

theorem isNegOf_zero : IsNegOf (fin 0) (fin 0) := by simp [IsNegOf]

theorem isNegOf_mul_right {a b : GoFloat} (c : GoFloat) (h : IsNegOf a b) :
    IsNegOf (a * c) (b * c) := by
  cases a <;> cases b <;> simp only [IsNegOf] at h <;> cases c <;>
    simp_all [IsNegOf, gf_mul_def, GoFloat.mul, isNaN, isInf, isZero, toReal, signBit, finS,
      zeroS, infS] <;>
    split_ifs <;> simp_all [IsNegOf]
  all_goals first | linarith | (exfalso; apply ‹¬ _ = (0 : ℝ)›; linarith)

theorem mul_comm_go (a b : GoFloat) : a * b = b * a := by
  apply goFloat_ext
  · simp only [isNaN_mul]
    generalize a.isNaN = x1; generalize b.isNaN = x2
    generalize a.isInf = y1; generalize b.isInf = y2
    generalize a.isZero = z1; generalize b.isZero = z2
    revert x1 x2 y1 y2 z1 z2
    decide
  · simp only [isNaN_mul, isInf_mul]
    generalize a.isNaN = x1; generalize b.isNaN = x2
    generalize a.isInf = y1; generalize b.isInf = y2
    generalize a.isZero = z1; generalize b.isZero = z2
    revert x1 x2 y1 y2 z1 z2
    decide
  · simp only [isNaN_mul, signBit_mul]
    generalize a.isNaN = x1; generalize b.isNaN = x2
    generalize a.isInf = y1; generalize b.isInf = y2
    generalize a.isZero = z1; generalize b.isZero = z2
    generalize a.signBit = s1; generalize b.signBit = s2
    revert x1 x2 y1 y2 z1 z2 s1 s2
    decide
  · simp only [toReal_mul, mul_comm]

theorem isNegOf_mul_left {a b : GoFloat} (c : GoFloat) (h : IsNegOf a b) :
    IsNegOf (c * a) (c * b) := by
  rw [mul_comm_go c a, mul_comm_go c b]
  exact isNegOf_mul_right c h

theorem isNegOf_div_right {a b : GoFloat} (c : GoFloat) (h : IsNegOf a b) :
    IsNegOf (a / c) (b / c) := by
  rw [div_eq_mul_inv_go, div_eq_mul_inv_go]
  exact isNegOf_mul_right _ h

theorem mul_self_eq_of_isNegOf {a b : GoFloat} (h : IsNegOf a b) : a * a = b * b := by
  cases a <;> cases b <;> simp only [IsNegOf] at h <;>
    simp_all [gf_mul_def, GoFloat.mul, isNaN, isInf, isZero, toReal, signBit, finS, zeroS, infS]

theorem Cos_eq_of_isNegOf {a b : GoFloat} (h : IsNegOf a b) : Cos a = Cos b := by
  cases a <;> cases b <;> simp only [IsNegOf] at h <;> simp_all [Cos]

theorem isNegOf_add {a b c d : GoFloat} (h1 : IsNegOf a b) (h2 : IsNegOf c d) :
    IsNegOf (a + c) (b + d) := by
  cases a <;> cases b <;> simp only [IsNegOf] at h1 <;>
    cases c <;> cases d <;> simp only [IsNegOf] at h2 <;>
    simp_all [IsNegOf, gf_add_def, GoFloat.add, isNaN, isInf, isZero, toReal, signBit, finS,
      zeroS, infS] <;>
    split_ifs <;> simp_all [IsNegOf]
  all_goals first | linarith | (exfalso; apply ‹¬ _ = (0 : ℝ)›; linarith)

/-- Reflecting the pixel through the origin and replacing the phase by an
opposite phase leaves `gabor` unchanged. -/
theorem gabor_reflect (gamma theta lambda sigma : GoFloat) {phi1 phi2 : GoFloat}
    (h : IsNegOf phi1 phi2) (x y : Int) :
    gabor gamma theta lambda sigma phi1 (-x) (-y) = gabor gamma theta lambda sigma phi2 x y := by
  have hx := isNegOf_ofInt x
  have hy := isNegOf_ofInt y
  have hxp : IsNegOf (ofInt (-x) * Cos theta + ofInt (-y) * Sin theta)
      (ofInt x * Cos theta + ofInt y * Sin theta) :=
    isNegOf_add (isNegOf_mul_right _ hx) (isNegOf_mul_right _ hy)
  have hyp : IsNegOf (fin (-1) * ofInt (-x) * Sin theta + ofInt (-y) * Cos theta)
      (fin (-1) * ofInt x * Sin theta + ofInt y * Cos theta) :=
    isNegOf_add (isNegOf_mul_right _ (isNegOf_mul_left _ hx)) (isNegOf_mul_right _ hy)
  have hxx : ofInt (-x) * ofInt (-x) = ofInt x * ofInt x := mul_self_eq_of_isNegOf hx
  have e1 : gamma * gamma * (fin (-1) * ofInt (-x) * Sin theta + ofInt (-y) * Cos theta)
        * (fin (-1) * ofInt (-x) * Sin theta + ofInt (-y) * Cos theta)
      = gamma * gamma * (fin (-1) * ofInt x * Sin theta + ofInt y * Cos theta)
        * (fin (-1) * ofInt x * Sin theta + ofInt y * Cos theta) := by
    rw [mul_assoc_go (gamma * gamma), mul_assoc_go (gamma * gamma), mul_self_eq_of_isNegOf hyp]
  have hb := Cos_eq_of_isNegOf
    (isNegOf_add (isNegOf_div_right lambda (isNegOf_mul_left (fin 2 * Pi) hxp)) h)
  simp only [gabor, float64, float32]
  rw [hxx, e1, hb]

/-! ## Bound on the kernel -/

theorem div_zero_not_finite (a : GoFloat) {b : GoFloat} (hb : b.isZero = true) :
    (a / b).isFinite = false := by
  cases a <;> cases b <;>
    simp_all [gf_div_def, GoFloat.div, isZero, isNaN, isInf, isFinite, infS] <;>
    split_ifs <;> simp [isFinite]

theorem add_not_finite {a : GoFloat} (b : GoFloat) (ha : a.isFinite = false) :
    (a + b).isFinite = false := by
  cases a <;> cases b <;>
    simp_all [gf_add_def, GoFloat.add, isNaN, isInf, isFinite, signBit]

theorem Cos_not_finite {a : GoFloat} (ha : a.isFinite = false) : Cos a = nan := by
  cases a <;> simp_all [Cos, isFinite]

/-- With `lambda` a zero `gabor` is NaN at every pixel: the argument of the
carrier is a quotient by zero. -/
theorem gabor_lambda_zero (gamma theta sigma phi : GoFloat) {lambda : GoFloat} (x y : Int)
    (hl : lambda.isZero = true) : gabor gamma theta lambda sigma phi x y = nan := by
  simp only [gabor, float64, float32]
  rw [Cos_not_finite (add_not_finite _ (div_zero_not_finite _ hl)), mul_nan]

/-- On finite arguments with `lambda` and `sigma` other than zero `gabor`
is a real number of absolute value at most one. -/
theorem gabor_abs_le_one (g t l s p : ℝ) (x y : Int) (hl : l ≠ 0) (hs : s ≠ 0) :
    ∃ r : ℝ, gabor (fin g) (fin t) (fin l) (fin s) (fin p) x y = fin r ∧ |r| ≤ 1 := by
  refine ⟨_, gabor_hasVal x y (hasVal_fin g) (hasVal_fin t) (hasVal_fin l) (hasVal_fin s)
    (hasVal_fin p) hl hs, ?_⟩
  have hden : -2 * s * s < 0 := by
    have := mul_self_pos.mpr hs
    nlinarith
  have hnum : 0 ≤ (x : ℝ) * x + g * g * (-1 * x * Real.sin t + y * Real.cos t)
      * (-1 * x * Real.sin t + y * Real.cos t) := by
    have h1 := mul_self_nonneg (x : ℝ)
    have h2 := mul_self_nonneg (g * (-1 * x * Real.sin t + y * Real.cos t))
    nlinarith
  have hE : Real.exp (((x : ℝ) * x + g * g * (-1 * x * Real.sin t + y * Real.cos t)
      * (-1 * x * Real.sin t + y * Real.cos t)) / (-2 * s * s)) ≤ 1 := by
    rw [Real.exp_le_one_iff]
    exact div_nonpos_of_nonneg_of_nonpos hnum hden.le
  rw [abs_mul, abs_of_pos (Real.exp_pos _)]
  calc Real.exp _ * |Real.cos _| ≤ 1 * 1 :=
        mul_le_mul hE (Real.abs_cos_le_one _) (abs_nonneg _) zero_le_one
    _ = 1 := one_mul 1

/-! ## Text of the file -/

theorem concatRange_succ (n : Nat) (f : Nat → String) :
    concatRange (n + 1) f = concatRange n f ++ f n := rfl

/-- A loop that appends `f k` at the iteration `k` appends
`concatRange n f` in all. -/
theorem forLoop_append {ε : Type} (n : Nat) (body : Nat → String → Except ε String)
    (f : Nat → String) (h : ∀ k out, k < n → body k out = .ok (out ++ f k)) (out : String) :
    forLoop n body out = .ok (out ++ concatRange n f) := by
  induction n with
  | zero => simp [forLoop, concatRange]
  | succ n ih =>
    rw [forLoop_succ, ih (fun k out hk => h k out (Nat.lt_succ_of_lt hk)), concatRange_succ,
      ← String.append_assoc]
    exact h n _ (Nat.lt_succ_self n)

/-- On an `n` by `n` matrix, `n > 0`, `saveToFile` ends without a fault and
the file has `n` lines of `n` tokens, the token `i` of the line `j` being the
cell `wavelet[i][j]`. -/
theorem saveToFile_square {α : Type} (fmtF : α → String) {m : List (List α)} {n : Nat}
    (hn : 0 < n) (hs : Shaped m n n) (cell : Nat → Nat → α)
    (hc : ∀ i j, i < n → j < n → cellAt m i j = some (cell i j)) :
    saveToFile fmtF true m = ⟨some (csvText fmtF n cell), none⟩ := by
  obtain ⟨row0, hr0, hl0⟩ := shaped_row hs hn
  have hinner : ∀ j out, j < n →
      forLoop n
        (fun i out =>
          match cellAt m i j with
          | none => (Except.error (out, Fault.indexOutOfRange) : Except (String × Fault) String)
          | some v => .ok (out ++ (fmtF v ++ ",")))
        out
      = .ok (out ++ concatRange n (fun i => fmtF (cell i j) ++ ",")) := by
    intro j out hj
    apply forLoop_append
    intro k out1 hk
    simp only [hc k j hk hj]
  have houter := forLoop_append n
    (fun j out =>
      match forLoop n
          (fun i out =>
            match cellAt m i j with
            | none => (Except.error (out, Fault.indexOutOfRange) : Except (String × Fault) String)
            | some v => .ok (out ++ (fmtF v ++ ",")))
          out with
      | .error e => .error e
      | .ok out => .ok (out ++ "\n"))
    (fun j => concatRange n (fun i => fmtF (cell i j) ++ ",") ++ "\n")
    (by
      intro j out hj
      simp only [hinner j out hj, String.append_assoc])
    ""
  simp only [saveToFile, hr0, hs.1, hl0, Bool.not_true, Bool.false_eq_true, if_false]
  rw [houter]
  simp [csvText]

/-! ## The centre of the matrix -/

theorem isNaN_of_isFinite {a : GoFloat} (h : a.isFinite = true) : a.isNaN = false := by
  cases a <;> simp_all [isFinite, isNaN]

/-- The cell of index `(n/2, n/2)` of the matrix holds `gabor` at the origin
of the plane. -/
theorem wavelet_centre_cell (beta gamma theta lambda phi : GoFloat) {n : Nat} (hn : 0 < n) :
    ∃ m, wavelet beta gamma theta lambda phi n n = .ok m ∧
      cellAt m (n / 2) (n / 2)
        = some (gabor gamma theta lambda (waveletSigma beta lambda) phi 0 0) := by
  obtain ⟨m, hm, _, hc⟩ := wavelet_square beta gamma theta lambda phi n
  have hlt : n / 2 < n := Nat.div_lt_self hn (by decide)
  have h0 : ((n / 2 : Nat) : Int) - Int.tdiv n 2 = 0 := by
    rw [Int.ofNat_tdiv]; simp
  refine ⟨m, hm, ?_⟩
  rw [hc (n / 2) (n / 2) hlt hlt, h0]

/-! ## Overflow and underflow of the standard deviation -/

/-- The standard deviation before its narrowing, for `beta` between the
thresholds of `math.Pow` and other than `1`. -/
theorem sigmaRaw_hasVal {b : ℝ} (l : ℝ) (hb1 : -1075 < b) (hb2 : b < 1024)
    (hb : (2 : ℝ) ^ b - 2 ≠ 0) :
    HasVal (fin l * ((fin 1 / Pi) * Sqrt (Log (fin 2) / fin 2)
        * ((Pow2 (fin b) + fin 1) / (Pow2 (fin b) - fin 2))))
      (l * ((1 / Real.pi) * Real.sqrt (Real.log 2 / 2)
        * (((2 : ℝ) ^ b + 1) / ((2 : ℝ) ^ b - 2)))) :=
  hasVal_mul (hasVal_fin l) (hasVal_mul sigma_const_hasVal
    (hasVal_div (hasVal_add (hasVal_Pow2 hb1 hb2) (hasVal_fin 1))
      (hasVal_sub (hasVal_Pow2 hb1 hb2) (hasVal_fin 2)) hb))

theorem sigmaFormula_eq (b l : ℝ) :
    sigmaFormula b l
      = l * ((1 / Real.pi) * Real.sqrt (Real.log 2 / 2)
        * (((2 : ℝ) ^ b + 1) / ((2 : ℝ) ^ b - 2))) := by
  unfold sigmaFormula; ring

theorem two_rpow_sub_two_ne_zero {b : ℝ} (hb : b ≠ 1) : (2 : ℝ) ^ b - 2 ≠ 0 := by
  intro h
  have h2 : (2 : ℝ) ^ b = (2 : ℝ) ^ (1 : ℝ) := by rw [Real.rpow_one]; linarith
  rcases lt_or_gt_of_ne hb with h1 | h1
  · have := (Real.rpow_lt_rpow_left_iff (by norm_num : (1 : ℝ) < 2)).mpr h1
    linarith
  · have := (Real.rpow_lt_rpow_left_iff (by norm_num : (1 : ℝ) < 2)).mpr h1
    linarith

/-- Between the thresholds of `math.Pow` and away from `beta = 1` the
standard deviation carries the value of the formula whenever that value is in
the range of `float32`. -/
theorem waveletSigma_formula_hasVal {b l : ℝ} (hb1 : -1075 < b) (hb2 : b < 1024) (hb : b ≠ 1)
    (hv : InFloat32Range (sigmaFormula b l)) :
    HasVal (waveletSigma (fin b) (fin l)) (sigmaFormula b l) := by
  rw [sigmaFormula_eq] at hv ⊢
  simp only [waveletSigma, float64]
  exact hasVal_narrow32 (sigmaRaw_hasVal l hb1 hb2 (two_rpow_sub_two_ne_zero hb)) hv

theorem sigmaFormula_ne_zero {b l : ℝ} (hb : b ≠ 1) (hl : l ≠ 0) : sigmaFormula b l ≠ 0 := by
  rw [sigmaFormula_eq]
  have hp : (0 : ℝ) < (2 : ℝ) ^ b := Real.rpow_pos_of_pos (by norm_num) b
  have h1 : (2 : ℝ) ^ b + 1 ≠ 0 := by linarith
  exact mul_ne_zero hl (mul_ne_zero sigma_const_pos.ne'
    (div_ne_zero h1 (two_rpow_sub_two_ne_zero hb)))

/-- From `beta = 1024` on `math.Pow` overflows and the standard deviation
is NaN, the quotient being `Inf/Inf`. -/
theorem waveletSigma_pow_overflow {b : ℝ} (hb : 1024 ≤ b) (lambda : GoFloat) :
    waveletSigma (fin b) lambda = nan := by
  have hp : Pow2 (fin b) = posInf := by simp [Pow2, hb]
  have h1 : posInf + fin 1 = posInf := by
    simp [gf_add_def, GoFloat.add, isNaN, isInf]
  have h2 : posInf - fin 2 = posInf := by
    simp [gf_sub_def, GoFloat.add, GoFloat.neg, isNaN, isInf, finS]
  have h3 : posInf / posInf = nan := by
    simp [gf_div_def, GoFloat.div, isNaN, isInf]
  simp only [waveletSigma, float64, hp, h1, h2, h3, mul_nan]
  rfl

/-- For `beta = 2` and `lambda = 2^-149`, the least positive `float32`, the
narrowing of the standard deviation underflows to zero. -/
theorem waveletSigma_underflow : waveletSigma (fin 2) (fin (1 / 2 ^ 149)) = fin 0 := by
  obtain ⟨hc1, hc2⟩ := sigma_const_bounds
  have h := sigmaRaw_hasVal (b := 2) (1 / 2 ^ 149) (by norm_num) (by norm_num)
    (by rw [Real.rpow_two]; norm_num)
  have e : (1 / 2 ^ 149 : ℝ) * ((1 / Real.pi) * Real.sqrt (Real.log 2 / 2)
      * (((2 : ℝ) ^ (2 : ℝ) + 1) / ((2 : ℝ) ^ (2 : ℝ) - 2)))
      = (1 / 2 ^ 149) * ((1 / Real.pi) * Real.sqrt (Real.log 2 / 2) * (5 / 2)) := by
    rw [Real.rpow_two]; norm_num
  rw [e] at h
  have hpos : 0 < (1 / 2 ^ 149 : ℝ) * ((1 / Real.pi) * Real.sqrt (Real.log 2 / 2) * (5 / 2)) := by
    have := sigma_const_pos
    positivity
  have hsmall : (1 / 2 ^ 149 : ℝ) * ((1 / Real.pi) * Real.sqrt (Real.log 2 / 2) * (5 / 2))
      ≤ 1 / 2 ^ 150 := by
    have h5 : (1 / Real.pi) * Real.sqrt (Real.log 2 / 2) * (5 / 2) ≤ 1 / 2 := by linarith
    have h6 : (0 : ℝ) ≤ 1 / 2 ^ 149 := by positivity
    calc (1 / 2 ^ 149 : ℝ) * ((1 / Real.pi) * Real.sqrt (Real.log 2 / 2) * (5 / 2))
        ≤ (1 / 2 ^ 149) * (1 / 2) := mul_le_mul_of_nonneg_left h5 h6
      _ = 1 / 2 ^ 150 := by norm_num
  simp only [waveletSigma, float64]
  rw [hasVal_eq_fin h hpos.ne']
  simp only [narrow32]
  rw [abs_of_pos hpos, if_neg (by
    intro hbig
    have : (1 / 2 ^ 150 : ℝ) < 2 ^ 128 - 2 ^ 103 := by norm_num
    linarith), if_pos hsmall]
  rw [decide_eq_false (not_lt.mpr hpos.le)]
  rfl

/-- With a NaN standard deviation `gabor` is NaN at every pixel. -/
theorem gabor_sigma_nan (gamma theta lambda phi : GoFloat) (x y : Int) :
    gabor gamma theta lambda nan phi x y = nan := by
  have hden : fin (-2) * nan * nan = nan := by rw [mul_nan]
  have hdiv : ∀ a : GoFloat, a / nan = nan := by
    intro a; cases a <;> simp [gf_div_def, GoFloat.div, isNaN]
  simp only [gabor, float64, float32]
  rw [hden, hdiv, Exp_nan, nan_mul]

/-! # The claims of the specification -/

/-- Claim C1 (defect of the code).  The specification asks that the cell with
outer index `j` and inner index `i` hold `gabor` at `x = i - width/2`,
`y = j - height/2`.  The program writes `matrix[i][j]`: on the 2 by 2 grid
with `beta = 2`, `gamma = 1`, `theta = 0`, `lambda = 4`, `phi = 0` the cell
with outer index 0 and inner index 1 holds `gabor` at `(x, y) = (-1, 0)`,
which differs from the required value, `gabor` at `(x, y) = (0, -1)`. -/
theorem wavelet_cell_transposed :
    ∃ m, wavelet (fin 2) (fin 1) (fin 0) (fin 4) (fin 0) 2 2 = .ok m ∧
      cellAt m 0 1
        = some (gabor (fin 1) (fin 0) (fin 4) (waveletSigma (fin 2) (fin 4)) (fin 0) (-1) 0) ∧
      gabor (fin 1) (fin 0) (fin 4) (waveletSigma (fin 2) (fin 4)) (fin 0) (-1) 0
        ≠ gabor (fin 1) (fin 0) (fin 4) (waveletSigma (fin 2) (fin 4)) (fin 0) 0 (-1) := by
  obtain ⟨m, hm, _, hc⟩ := wavelet_square (fin 2) (fin 1) (fin 0) (fin 4) (fin 0) 2
  refine ⟨m, hm, ?_, ?_⟩
  · have := hc 0 1 (by decide) (by decide)
    simpa using this
  · obtain ⟨hsig4, hpos4⟩ := waveletSigma_two (l := 4) (by norm_num) (by norm_num)
    have hsig : HasVal (waveletSigma (fin 2) (fin 4))
        (4 * ((1 / Real.pi) * Real.sqrt (Real.log 2 / 2) * (5 / 2))) := by
      rw [hsig4]; exact hasVal_fin _
    have hpos := hpos4.ne'
    rw [gabor_hasVal (-1) 0 (hasVal_fin 1) (hasVal_fin 0) (hasVal_fin 4) hsig
        (hasVal_fin 0) (by norm_num) hpos,
      gabor_hasVal 0 (-1) (hasVal_fin 1) (hasVal_fin 0) (hasVal_fin 4) hsig
        (hasVal_fin 0) (by norm_num) hpos]
    have e1 : 2 * Real.pi * ((((-1 : Int)) : ℝ) * Real.cos 0 + (((0 : Int)) : ℝ) * Real.sin 0) / 4
        + 0 = -(Real.pi / 2) := by
      simp; ring
    have e2 : 2 * Real.pi * ((((0 : Int)) : ℝ) * Real.cos 0 + (((-1 : Int)) : ℝ) * Real.sin 0) / 4
        + 0 = 0 := by
      simp
    rw [e1, e2, Real.cos_neg, Real.cos_pi_div_two, Real.cos_zero, mul_zero, mul_one]
    intro h
    injection h with h
    exact (Real.exp_pos _).ne h

/-- Claim C2.  For `width > 0` and `height > 0`, `wavelet` runs to completion
exactly when `width = height`; when they differ it ends in an index fault,
and some write `matrix[i][j]` of the loops (`i < width`, `j < height`) falls
outside the `height` by `width` storage that was allocated. -/
theorem wavelet_completes_iff_square (beta gamma theta lambda phi : GoFloat)
    (width height : Int) (hw : 0 < width) (hh : 0 < height) :
    ((∃ m, wavelet beta gamma theta lambda phi width height = .ok m) ↔ width = height) ∧
    (width ≠ height →
      wavelet beta gamma theta lambda phi width height = .error .indexOutOfRange ∧
      ∃ i j : Nat, (i : Int) < width ∧ (j : Int) < height ∧
        ∀ v, setCell (List.replicate height.toNat (List.replicate width.toNat (fin 0))) i j v
          = .error .indexOutOfRange) := by
  obtain ⟨w, rfl⟩ := Int.eq_ofNat_of_zero_le (le_of_lt hw)
  obtain ⟨h, rfl⟩ := Int.eq_ofNat_of_zero_le (le_of_lt hh)
  have hw1 : 0 < w := by exact_mod_cast hw
  have hh1 : 0 < h := by exact_mod_cast hh
  have hfault : (w : Int) ≠ h →
      wavelet beta gamma theta lambda phi w h = .error .indexOutOfRange := fun hne =>
    wavelet_nonsquare beta gamma theta lambda phi hw1 hh1 (by exact_mod_cast hne)
  refine ⟨⟨?_, ?_⟩, fun hne => ⟨hfault hne, ?_⟩⟩
  · rintro ⟨m, hm⟩
    by_contra hne
    rw [hfault hne] at hm
    cases hm
  · intro heq
    have heq1 : w = h := by exact_mod_cast heq
    subst heq1
    obtain ⟨m, hm, _⟩ := wavelet_square beta gamma theta lambda phi w
    exact ⟨m, hm⟩
  · have hne1 : w ≠ h := by exact_mod_cast hne
    simp only [Int.toNat_ofNat]
    by_cases hlt : h < w
    · exact ⟨h, 0, by exact_mod_cast hlt, by exact_mod_cast hh1,
        fun v => setCell_fault v (shaped_replicate h w) (Or.inl (Nat.le_refl h))⟩
    · exact ⟨0, w, by exact_mod_cast hw1, by exact_mod_cast (by omega : w < h),
        fun v => setCell_fault v (shaped_replicate h w) (Or.inr (Nat.le_refl w))⟩

/-- Witness of claim C2 on the 3 wide, 2 high grid. -/
theorem wavelet_completes_iff_square_witness :
    ((∃ m, wavelet (fin 2) (fin 1) (fin 0) (fin 50) (fin 0) 3 2 = .ok m) ↔ (3 : Int) = 2) ∧
    ((3 : Int) ≠ 2 →
      wavelet (fin 2) (fin 1) (fin 0) (fin 50) (fin 0) 3 2 = .error .indexOutOfRange ∧
      ∃ i j : Nat, (i : Int) < 3 ∧ (j : Int) < 2 ∧
        ∀ v, setCell (List.replicate (2 : Int).toNat (List.replicate (3 : Int).toNat (fin 0))) i j v
          = .error .indexOutOfRange) :=
  wavelet_completes_iff_square (fin 2) (fin 1) (fin 0) (fin 50) (fin 0) 3 2 (by decide) (by decide)

/-- Claim C3 (defect of the code).  The specification asks for `h` rows of
`w` values for all `w, h > 0`.  With `width = 2`, `height = 1`, and with
`width = 1`, `height = 2`, `wavelet` returns no matrix: it ends in an index
fault, whatever the other parameters. -/
theorem wavelet_nonsquare_grid_faults (beta gamma theta lambda phi : GoFloat) :
    wavelet beta gamma theta lambda phi 2 1 = .error .indexOutOfRange ∧
    wavelet beta gamma theta lambda phi 1 2 = .error .indexOutOfRange :=
  ⟨rfl, rfl⟩

/-- Claim C4 (defect of the code).  The specification asks that line `j` of
the file list row `j` of the matrix.  `saveToFile` reads `wavelet[i][j]`:
for the matrix with rows `1 2` and `3 4` the file has the lines `1,3,` and
`2,4,`, the columns of the matrix; the same holds of every 2 by 2 matrix and
every rendering of the cells. -/
theorem saveToFile_writes_columns :
    saveToFile fmtInt true [[1, 2], [3, 4]]
      = ⟨some "1.000000,3.000000,\n2.000000,4.000000,\n", none⟩ ∧
    ∀ (α : Type) (fmtF : α → String) (a b c d : α),
      saveToFile fmtF true [[a, b], [c, d]]
        = ⟨some (fmtF a ++ "," ++ fmtF c ++ ",\n" ++ fmtF b ++ "," ++ fmtF d ++ ",\n"), none⟩ := by
  refine ⟨by decide, ?_⟩
  intro α fmtF a b c d
  simp [saveToFile, forLoop, cellAt, String.append_assoc]

/-- Claim C5 (defect of the code).  The specification asks for `h` lines of
`w` tokens for every `h` by `w` matrix.  On the matrix with the one row
`1 2` `saveToFile` writes the single token `1.000000,` and ends in an index
fault; on the matrix with the two rows `1` and `2` it writes one line and
ends in an index fault. -/
theorem saveToFile_rectangular_faults :
    saveToFile fmtInt true [[1, 2]] = ⟨some "1.000000,", some .indexOutOfRange⟩ ∧
    saveToFile fmtInt true [[1], [2]] = ⟨some "1.000000,\n", some .indexOutOfRange⟩ := by
  constructor <;> decide

/-- Claim C6.  For all arguments `gabor` returns the product `a * b` of the
formula of the specification, `gaborSpec`, whose envelope uses the raw `x`
and the rotated `yPrime`; on finite arguments with `lambda` and `sigma`
other than zero this is the real number
`exp((x^2 + gamma^2 * yPrime^2) / (-2 * sigma^2)) * cos(2*pi*xPrime/lambda + phi)`. -/
theorem gabor_eq_gaborSpec (gamma theta lambda sigma phi : GoFloat) (x y : Int) :
    gabor gamma theta lambda sigma phi x y = gaborSpec gamma theta lambda sigma phi x y ∧
    ∀ g t l s p : ℝ, l ≠ 0 → s ≠ 0 →
      gabor (fin g) (fin t) (fin l) (fin s) (fin p) x y
        = fin (Real.exp (((x : ℝ) ^ 2
                + g ^ 2 * (-(x : ℝ) * Real.sin t + (y : ℝ) * Real.cos t) ^ 2) / (-2 * s ^ 2))
            * Real.cos (2 * Real.pi * ((x : ℝ) * Real.cos t + (y : ℝ) * Real.sin t) / l + p)) := by
  constructor
  · simp only [gabor, gaborSpec, float64, float32, neg_one_mul_ofInt, mul_assoc_go]
  · intro g t l s p hl hs
    rw [gabor_hasVal x y (hasVal_fin g) (hasVal_fin t) (hasVal_fin l) (hasVal_fin s)
      (hasVal_fin p) hl hs]
    have e : ((x : ℝ) * x + g * g * (-1 * x * Real.sin t + y * Real.cos t)
          * (-1 * x * Real.sin t + y * Real.cos t)) / (-2 * s * s)
        = ((x : ℝ) ^ 2 + g ^ 2 * (-(x : ℝ) * Real.sin t + (y : ℝ) * Real.cos t) ^ 2)
          / (-2 * s ^ 2) := by
      ring
    rw [e]

/-- Witness of claim C6 at `gamma = 1`, `theta = 0`, `lambda = 50`,
`sigma = 20`, `phi = 0`, `x = 3`, `y = 4`. -/
theorem gabor_eq_gaborSpec_witness :
    gabor (fin 1) (fin 0) (fin 50) (fin 20) (fin 0) 3 4
      = gaborSpec (fin 1) (fin 0) (fin 50) (fin 20) (fin 0) 3 4 ∧
    gabor (fin 1) (fin 0) (fin 50) (fin 20) (fin 0) 3 4
      = fin (Real.exp ((((3 : Int) : ℝ) ^ 2
              + (1 : ℝ) ^ 2 * (-((3 : Int) : ℝ) * Real.sin 0 + ((4 : Int) : ℝ) * Real.cos 0) ^ 2)
                / (-2 * (20 : ℝ) ^ 2))
          * Real.cos (2 * Real.pi * (((3 : Int) : ℝ) * Real.cos 0 + ((4 : Int) : ℝ) * Real.sin 0)
              / 50 + 0)) :=
  ⟨(gabor_eq_gaborSpec (fin 1) (fin 0) (fin 50) (fin 20) (fin 0) 3 4).1,
   (gabor_eq_gaborSpec (fin 1) (fin 0) (fin 50) (fin 20) (fin 0) 3 4).2 1 0 50 20 0
      (by norm_num) (by norm_num)⟩

/-- Counterexample to claim C7 as stated.  At the origin `gabor` is NaN, not
`cos(phi) = 1`, for `lambda = 0`, for `sigma = 0`, for `gamma = +Inf` and for
`theta = +Inf`, the other arguments being taken among `gamma = 1`,
`theta = 0`, `lambda = 1`, `sigma = 1`, `phi = 0`. -/
theorem gabor_origin_nan :
    gabor (fin 1) (fin 0) (fin 0) (fin 1) (fin 0) 0 0 = nan ∧
    gabor (fin 1) (fin 0) (fin 1) (fin 0) (fin 0) 0 0 = nan ∧
    gabor posInf (fin 0) (fin 1) (fin 1) (fin 0) 0 0 = nan ∧
    gabor (fin 1) posInf (fin 1) (fin 1) (fin 0) 0 0 = nan ∧
    Cos (fin 0) = fin 1 :=
  ⟨gabor_origin_lambda_zero _ _ _ rfl (by simp [isZero]),
   gabor_origin_sigma_zero _ _ rfl rfl (by simp [isZero]),
   gabor_origin_gamma_inf _ _ _ rfl rfl,
   gabor_origin_theta_inf _ _ _ _ rfl, by simp [Cos]⟩

/-- Claim C7, amended.  For finite `gamma` and `theta`, every `phi`, and
`lambda` and `sigma` that are neither zero nor NaN (an infinite `sigma`
included), `gabor` at `x = 0`, `y = 0` returns exactly `cos(phi)`; with
`phi = 0` it returns `1`. -/
theorem gabor_centre_value {gamma theta lambda sigma : GoFloat} (phi : GoFloat)
    (hg : gamma.isFinite = true) (ht : theta.isFinite = true)
    (hl0 : lambda.isZero = false) (hln : lambda.isNaN = false)
    (hs0 : sigma.isZero = false) (hsn : sigma.isNaN = false) :
    gabor gamma theta lambda sigma phi 0 0 = float32 (Cos (float64 phi)) ∧
    gabor gamma theta lambda sigma (fin 0) 0 0 = fin 1 := by
  refine ⟨gabor_origin phi hg ht hl0 hln hs0 hsn, ?_⟩
  rw [gabor_origin (fin 0) hg ht hl0 hln hs0 hsn]
  simp [Cos]

/-- Witness of the amended claim C7 at `gamma = 1`, `theta = 0`,
`lambda = 50`, `sigma = 20`, `phi = 3`. -/
theorem gabor_centre_value_witness :
    gabor (fin 1) (fin 0) (fin 50) (fin 20) (fin 3) 0 0 = float32 (Cos (float64 (fin 3))) ∧
    gabor (fin 1) (fin 0) (fin 50) (fin 20) (fin 0) 0 0 = fin 1 :=
  gabor_centre_value (fin 3) rfl rfl (by simp [isZero]) rfl (by simp [isZero]) rfl

/-- Counterexample to claim C8 as stated.  For `beta = 1024`, `lambda = 50`
the standard deviation is NaN, `math.Pow` overflowing, where the formula
gives a real number; for `beta = 2`, `lambda = 2^-149` it is zero, the
narrowing to `float32` underflowing, where the formula gives a number other
than zero. -/
theorem waveletSigma_not_formula :
    waveletSigma (fin 1024) (fin 50) = nan ∧
    ¬ HasVal (waveletSigma (fin 1024) (fin 50)) (sigmaFormula 1024 50) ∧
    waveletSigma (fin 2) (fin (1 / 2 ^ 149)) = fin 0 ∧
    sigmaFormula 2 (1 / 2 ^ 149) ≠ 0 ∧
    ¬ HasVal (waveletSigma (fin 2) (fin (1 / 2 ^ 149))) (sigmaFormula 2 (1 / 2 ^ 149)) := by
  have h1 : waveletSigma (fin 1024) (fin 50) = nan :=
    waveletSigma_pow_overflow (le_refl _) _
  have h2 := waveletSigma_underflow
  have h3 : sigmaFormula 2 (1 / 2 ^ 149) ≠ 0 := by
    rw [sigmaFormula_eq, Real.rpow_two]
    have := sigma_const_pos
    have h5 : (0 : ℝ) < ((2 : ℝ) ^ 2 + 1) / ((2 : ℝ) ^ 2 - 2) := by norm_num
    positivity
  refine ⟨h1, ?_, h2, h3, ?_⟩
  · rw [h1]
    intro h
    exact absurd h.1 (by simp [isFinite])
  · rw [h2]
    intro h
    exact h3 h.2.symm

/-- Claim C8, amended.  For every real `beta` between the thresholds of
`math.Pow`, `-1075 < beta < 1024`, other than `1`, and every real `lambda`
for which the value `lambda * (1/pi) * sqrt(ln(2)/2) * (p+1)/(p-2)`,
`p = 2^beta`, is in the range of `float32`, the standard deviation that
`wavelet` derives is that value; for `beta = 2` it is
`lambda * (1/pi) * sqrt(ln(2)/2) * (5/2)`. -/
theorem waveletSigma_eq_formula (b l : ℝ) (hb1 : -1075 < b) (hb2 : b < 1024) (hb : b ≠ 1)
    (hv : InFloat32Range (sigmaFormula b l)) :
    HasVal (waveletSigma (fin b) (fin l)) (sigmaFormula b l) ∧
    (b = 2 → HasVal (waveletSigma (fin 2) (fin l))
      (l * (1 / Real.pi) * Real.sqrt (Real.log 2 / 2) * (5 / 2))) := by
  have hmain : HasVal (waveletSigma (fin b) (fin l)) (sigmaFormula b l) :=
    waveletSigma_formula_hasVal hb1 hb2 hb hv
  refine ⟨hmain, ?_⟩
  intro h2
  subst h2
  have e : sigmaFormula 2 l = l * (1 / Real.pi) * Real.sqrt (Real.log 2 / 2) * (5 / 2) := by
    unfold sigmaFormula
    rw [Real.rpow_two]
    norm_num
    ring
  rw [← e]
  exact hmain

/-- Witness of the amended claim C8 at `beta = 2`, `lambda = 50`. -/
theorem waveletSigma_eq_formula_witness :
    HasVal (waveletSigma (fin 2) (fin 50)) (sigmaFormula 2 50) ∧
    ((2 : ℝ) = 2 → HasVal (waveletSigma (fin 2) (fin 50))
      (50 * (1 / Real.pi) * Real.sqrt (Real.log 2 / 2) * (5 / 2))) :=
  waveletSigma_eq_formula 2 50 (by norm_num) (by norm_num) (by norm_num) (by
    have e : sigmaFormula 2 50 = sigmaDefault := by
      unfold sigmaFormula sigmaDefault
      rw [Real.rpow_two]
      norm_num
      ring
    obtain ⟨h1, h2⟩ := sigmaDefault_bounds
    rw [e]
    right
    rw [abs_of_pos (by linarith)]
    constructor
    · refine lt_trans ?_ h1
      norm_num
    · refine lt_trans h2 ?_
      norm_num)

/-- Counterexample to claim C9 as stated.  For `beta = 2`, `lambda = 50` the
standard deviation is not within `0.001` of `23.42`. -/
theorem sigma_default_not_within_tolerance :
    ¬ ∃ r : ℝ, waveletSigma (fin 2) (fin 50) = fin r ∧ |r - 23.42| ≤ 0.001 := by
  rintro ⟨r, hr, habs⟩
  rw [waveletSigma_default] at hr
  have hr2 : sigmaDefault = r := by injection hr
  have hb := sigmaDefault_bounds
  rw [← hr2, abs_le] at habs
  linarith [habs.2, hb.1]

/-- Claim C9, amended.  For `beta = 2`, `lambda = 50` the standard deviation
lies between `23.4238` and `23.4239`: it is within `0.001` of `23.4238` and
within `0.004` of `23.42`. -/
theorem sigma_default_value :
    ∃ r : ℝ, waveletSigma (fin 2) (fin 50) = fin r ∧ 23.4238 < r ∧ r < 23.4239 ∧
      |r - 23.4238| ≤ 0.001 ∧ |r - 23.42| ≤ 0.004 := by
  have hb := sigmaDefault_bounds
  refine ⟨sigmaDefault, waveletSigma_default, hb.1, hb.2, ?_, ?_⟩ <;> rw [abs_le] <;>
    constructor <;> linarith [hb.1, hb.2]

/-- Counterexample to claim C10 as stated.  For `beta = 1`, `gamma = 1`,
`theta = 0`, `lambda = 50`, `phi = 0` on the 2 by 2 grid the standard
deviation is `+Inf`, `wavelet` returns, and every cell of the matrix is
finite; the cell at the centre holds `1`. -/
theorem wavelet_beta_one_finite_cells :
    waveletSigma (fin 1) (fin 50) = posInf ∧
    ∃ m, wavelet (fin 1) (fin 1) (fin 0) (fin 50) (fin 0) 2 2 = .ok m ∧
      (∀ i j, i < 2 → j < 2 → ∃ v, cellAt m i j = some v ∧ v.isFinite = true) ∧
      cellAt m 1 1 = some (fin 1) := by
  obtain ⟨m, hm, hc⟩ := wavelet_beta_one_cells 2 (hasVal_fin 1) (hasVal_fin 0)
    (hasVal_fin 0) (by norm_num : (0 : ℝ) < 50)
  refine ⟨waveletSigma_beta_one (by norm_num), m, hm,
    fun i j hi hj => ⟨_, hc i j hi hj, rfl⟩, ?_⟩
  rw [hc 1 1 (by decide) (by decide)]
  simp

/-- Claim C10, amended.  For `beta = 1`, `lambda > 0` and finite `gamma`,
`theta`, `phi`, on every square grid: the standard deviation is `+Inf`,
`wavelet` returns, and every cell of the matrix is finite, the envelope
being `1` and the cell the carrier `cos(2*pi*xPrime/lambda + phi)`. -/
theorem wavelet_beta_one {gamma theta phi : GoFloat} {g t p l : ℝ} (n : Nat)
    (hg : HasVal gamma g) (ht : HasVal theta t) (hp : HasVal phi p) (hl : 0 < l) :
    waveletSigma (fin 1) (fin l) = posInf ∧
    ∃ m, wavelet (fin 1) gamma theta (fin l) phi n n = .ok m ∧
      ∀ i j, i < n → j < n → cellAt m i j
        = some (fin (Real.cos (2 * Real.pi
            * ((((i : Int) - Int.tdiv n 2 : Int) : ℝ) * Real.cos t
                + (((j : Int) - Int.tdiv n 2 : Int) : ℝ) * Real.sin t) / l + p))) :=
  ⟨waveletSigma_beta_one hl, wavelet_beta_one_cells n hg ht hp hl⟩

/-- Witness of the amended claim C10 on the 2 by 2 grid with `gamma = 1`,
`theta = 0`, `lambda = 50`, `phi = 0`. -/
theorem wavelet_beta_one_witness :
    waveletSigma (fin 1) (fin 50) = posInf ∧
    ∃ m, wavelet (fin 1) (fin 1) (fin 0) (fin 50) (fin 0) (2 : Nat) (2 : Nat) = .ok m ∧
      ∀ i j, i < 2 → j < 2 → cellAt m i j
        = some (fin (Real.cos (2 * Real.pi
            * ((((i : Int) - Int.tdiv (2 : Nat) 2 : Int) : ℝ) * Real.cos 0
                + (((j : Int) - Int.tdiv (2 : Nat) 2 : Int) : ℝ) * Real.sin 0) / 50 + 0))) :=
  wavelet_beta_one 2 (hasVal_fin 1) (hasVal_fin 0) (hasVal_fin 0) (by norm_num)

/-- Claim C11.  On a square grid, `width = height = n`, the matrix does not
depend on the order in which the units of work are executed: run in any
order that is a permutation of `0, ..., n - 1`, they end without a fault in
the very matrix that `wavelet` returns. -/
theorem wavelet_order_independent (beta gamma theta lambda phi : GoFloat) (n : Nat)
    (order : List Nat) (hperm : order.Perm (List.range n)) :
    ∃ m, waveletScheduled order beta gamma theta lambda phi n n = .ok m ∧
      wavelet beta gamma theta lambda phi n n = .ok m := by
  obtain ⟨m, hm, hs, hc⟩ := wavelet_square beta gamma theta lambda phi n
  have hlt : ∀ j ∈ order, j < n := fun j hj => List.mem_range.mp (hperm.mem_iff.mp hj)
  obtain ⟨m1, h1, hs1, hv1, _⟩ :=
    runUnits_ok gamma theta lambda (waveletSigma beta lambda) phi n order hlt
      (List.replicate n (List.replicate n (fin 0))) (shaped_replicate n n)
  have heq : m1 = m := by
    apply grid_ext hs1 hs
    intro i j hi hj
    rw [hc i j hi hj, hv1 i j hi (hperm.mem_iff.mpr (List.mem_range.mpr hj))]
  refine ⟨m, ?_, hm⟩
  simp only [waveletScheduled, makeMatrix_ok]
  rw [h1, heq]

/-- Witness of claim C11 on the 3 by 3 grid with the units run in the order
`2, 0, 1`. -/
theorem wavelet_order_independent_witness :
    ∃ m, waveletScheduled [2, 0, 1] (fin 2) (fin 1) (fin 0) (fin 50) (fin 0) (3 : Nat) (3 : Nat)
        = .ok m ∧
      wavelet (fin 2) (fin 1) (fin 0) (fin 50) (fin 0) (3 : Nat) (3 : Nat) = .ok m :=
  wavelet_order_independent (fin 2) (fin 1) (fin 0) (fin 50) (fin 0) 3 [2, 0, 1] (by decide)

/-- Claim C12 (defect of the code).  The specification asks that the unit of
work of `j` write only cells of outer index `j`.  On the 2 by 2 matrix the
unit of work of `j = 0` writes the cells of index pairs `(0, 0)` and `(1, 0)`,
outer index first: it stores a value in the row of outer index 1; what its
writes share is the inner index `j`. -/
theorem rowUnit_writes_every_row (gamma theta lambda sigma phi : GoFloat) (y : Int) :
    rowUnitLogged gamma theta lambda sigma phi 2 0 y ([[fin 0, fin 0], [fin 0, fin 0]], [])
      = .ok ([[gabor gamma theta lambda sigma phi (-1) y, fin 0],
              [gabor gamma theta lambda sigma phi 0 y, fin 0]], [(0, 0), (1, 0)]) := by
  rfl

/-- Claim C13.  On a square grid, `width = height = n`, `wavelet` writes
every cell of the matrix exactly once: the iteration `i` of the unit of work
`j` writes the cell `writtenCell j i`, the list of the writes has no
repetition and holds exactly the cells `(a, b)` with `a < n` and `b < n`, and
every such cell is the cell of exactly one pair of loop indices `(j, i)`. -/
theorem wavelet_writes_each_cell_once (beta gamma theta lambda phi : GoFloat) (n : Nat) :
    ∃ m log, waveletLogged beta gamma theta lambda phi n n = .ok (m, log) ∧
      wavelet beta gamma theta lambda phi n n = .ok m ∧
      log = (List.range n).flatMap (fun j => (List.range n).map (writtenCell j)) ∧
      log.Nodup ∧
      (∀ a b, (a, b) ∈ log ↔ a < n ∧ b < n) ∧
      (∀ a b, a < n → b < n →
        ∃! p : Nat × Nat, p.1 < n ∧ p.2 < n ∧ writtenCell p.1 p.2 = (a, b)) := by
  obtain ⟨m, hL, hm⟩ := waveletLogged_square beta gamma theta lambda phi n
  obtain ⟨hnd, hmem⟩ := writes_square n
  refine ⟨m, _, hL, hm, rfl, hnd, hmem, ?_⟩
  intro a b ha hb
  refine ⟨(b, a), ⟨hb, ha, rfl⟩, ?_⟩
  rintro ⟨j, i⟩ ⟨_, _, h⟩
  simp only [writtenCell, Prod.mk.injEq] at h
  simp [h.1, h.2]

/-- Counterexample to claim C14 as stated.  With `lambda = 0` (and
`beta = 2`, `gamma = 1`, `theta = 0`, `phi = 0`) on the 3 by 3 grid the cell
of index `(1, 1)` holds NaN, not `cos(phi) = 1`; so it does with
`beta = 1024`, `lambda = 50`, the standard deviation being NaN, and with
`beta = 2`, `lambda = 2^-149`, the standard deviation being zero. -/
theorem wavelet_centre_nan :
    (∃ m, wavelet (fin 2) (fin 1) (fin 0) (fin 0) (fin 0) 3 3 = .ok m ∧
      cellAt m 1 1 = some nan) ∧
    (∃ m, wavelet (fin 1024) (fin 1) (fin 0) (fin 50) (fin 0) 3 3 = .ok m ∧
      cellAt m 1 1 = some nan) ∧
    (∃ m, wavelet (fin 2) (fin 1) (fin 0) (fin (1 / 2 ^ 149)) (fin 0) 3 3 = .ok m ∧
      cellAt m 1 1 = some nan) ∧
    Cos (fin 0) = fin 1 := by
  refine ⟨?_, ?_, ?_, by simp [Cos]⟩
  · obtain ⟨m, hm, hc⟩ := wavelet_centre_cell (fin 2) (fin 1) (fin 0) (fin 0) (fin 0)
      (by decide : 0 < 3)
    refine ⟨m, hm, ?_⟩
    have h := hc
    rw [gabor_lambda_zero _ _ _ _ _ _ (by simp [isZero])] at h
    exact h
  · obtain ⟨m, hm, hc⟩ := wavelet_centre_cell (fin 1024) (fin 1) (fin 0) (fin 50) (fin 0)
      (by decide : 0 < 3)
    refine ⟨m, hm, ?_⟩
    have h := hc
    rw [waveletSigma_pow_overflow (le_refl _), gabor_sigma_nan] at h
    exact h
  · obtain ⟨m, hm, hc⟩ := wavelet_centre_cell (fin 2) (fin 1) (fin 0) (fin (1 / 2 ^ 149))
      (fin 0) (by decide : 0 < 3)
    refine ⟨m, hm, ?_⟩
    have h := hc
    rw [waveletSigma_underflow,
      gabor_origin_sigma_zero (fin (1 / 2 ^ 149)) (fin 0)
        (rfl : (fin 1 : GoFloat).isFinite = true) (rfl : (fin 0 : GoFloat).isFinite = true)
        (by simp [isZero] : (fin 0 : GoFloat).isZero = true)] at h
    exact h

/-- Claim C14, amended.  On a square grid, `width = height = n > 0`, the
origin of the plane is placed at the cell of index `(n/2, n/2)`, the division
truncating: that cell holds `gabor` at `x = 0`, `y = 0`, and this value is
`cos(phi)` for finite `gamma` and `theta` and for a `lambda` and a derived
standard deviation that are neither zero nor NaN; so it is for every real
`beta` with `-1075 < beta < 1024` other than `1` and every real `lambda`
other than zero for which the value of the formula of the standard deviation
is in the range of `float32`. -/
theorem wavelet_centre (beta gamma theta lambda phi : GoFloat) (n : Nat) (hn : 0 < n) :
    ∃ m, wavelet beta gamma theta lambda phi n n = .ok m ∧
      cellAt m (n / 2) (n / 2)
        = some (gabor gamma theta lambda (waveletSigma beta lambda) phi 0 0) ∧
      (gamma.isFinite = true → theta.isFinite = true →
        lambda.isZero = false → lambda.isNaN = false →
        (waveletSigma beta lambda).isZero = false → (waveletSigma beta lambda).isNaN = false →
        cellAt m (n / 2) (n / 2) = some (Cos phi)) ∧
      (∀ b l : ℝ, beta = fin b → lambda = fin l → -1075 < b → b < 1024 → b ≠ 1 → l ≠ 0 →
        InFloat32Range (sigmaFormula b l) →
        gamma.isFinite = true → theta.isFinite = true →
        cellAt m (n / 2) (n / 2) = some (Cos phi)) := by
  obtain ⟨m, hm, hc⟩ := wavelet_centre_cell beta gamma theta lambda phi hn
  refine ⟨m, hm, hc, ?_, ?_⟩
  · intro hg ht hl0 hln hs0 hsn
    rw [hc, gabor_origin phi hg ht hl0 hln hs0 hsn]
  · intro b l hbeta hlam hb1 hb2 hb hl hv hg ht
    subst hbeta hlam
    have hs : waveletSigma (fin b) (fin l) = fin (sigmaFormula b l) :=
      hasVal_eq_fin (waveletSigma_formula_hasVal hb1 hb2 hb hv) (sigmaFormula_ne_zero hb hl)
    have hs0 : (waveletSigma (fin b) (fin l)).isZero = false := by
      rw [hs]; simpa [isZero] using sigmaFormula_ne_zero hb hl
    have hsn : (waveletSigma (fin b) (fin l)).isNaN = false := by rw [hs]; rfl
    have hl0 : (fin l : GoFloat).isZero = false := by simpa [isZero] using hl
    have hln : (fin l : GoFloat).isNaN = false := rfl
    rw [hc, gabor_origin phi hg ht hl0 hln hs0 hsn]

/-- Witness of the amended claim C14 on the 4 by 4 grid with `beta = 2`,
`gamma = 1`, `theta = 0`, `lambda = 50`, `phi = 0`. -/
theorem wavelet_centre_witness :
    ∃ m, wavelet (fin 2) (fin 1) (fin 0) (fin 50) (fin 0) (4 : Nat) (4 : Nat) = .ok m ∧
      cellAt m (4 / 2) (4 / 2)
        = some (gabor (fin 1) (fin 0) (fin 50) (waveletSigma (fin 2) (fin 50)) (fin 0) 0 0) ∧
      cellAt m (4 / 2) (4 / 2) = some (Cos (fin 0)) := by
  obtain ⟨m, hm, hc, hcos, _⟩ :=
    wavelet_centre (fin 2) (fin 1) (fin 0) (fin 50) (fin 0) 4 (by decide)
  have hsig : waveletSigma (fin 2) (fin 50) = fin sigmaDefault := waveletSigma_default
  have hpos : sigmaDefault ≠ 0 := by
    have := sigmaDefault_bounds.1
    intro h; rw [h] at this; norm_num at this
  exact ⟨m, hm, hc, hcos rfl rfl (by simp [isZero]) rfl
    (by rw [hsig]; simpa [isZero] using hpos) (by rw [hsig]; rfl)⟩

/-- Claim C15.  The dimensions are not validated: with `height = 0`
`wavelet` returns the empty matrix without a fault, for every width, and
`saveToFile` applied to the empty matrix creates the file, writes nothing
and ends in an index fault on reading `wavelet[0]`, for every rendering of
the cells. -/
theorem wavelet_zero_height (beta gamma theta lambda phi : GoFloat) (width : Int) :
    wavelet beta gamma theta lambda phi width 0 = .ok [] ∧
    ∀ fmtF : GoFloat → String,
      saveToFile fmtF true ([] : Grid) = ⟨some "", some .indexOutOfRange⟩ := by
  constructor
  · simp [wavelet, makeMatrix, forLoop]
  · intro fmtF
    rfl

/-- Claim C16.  End to end on a square grid, `width = height = n > 0`:
`wavelet` returns a matrix on which `saveToFile` ends without a fault, and
the file is the text whose line `j` has as token `i` the rendering of `gabor`
at `x = i - n/2`, `y = j - n/2`, for every rendering of the cells. -/
theorem saveToFile_wavelet (fmtF : GoFloat → String) (beta gamma theta lambda phi : GoFloat)
    (n : Nat) (hn : 0 < n) :
    ∃ m, wavelet beta gamma theta lambda phi n n = .ok m ∧
      saveToFile fmtF true m
        = ⟨some (csvText fmtF n (fun i j =>
            gabor gamma theta lambda (waveletSigma beta lambda) phi
              ((i : Int) - Int.tdiv n 2) ((j : Int) - Int.tdiv n 2))), none⟩ := by
  obtain ⟨m, hm, hs, hc⟩ := wavelet_square beta gamma theta lambda phi n
  exact ⟨m, hm, saveToFile_square fmtF hn hs _ hc⟩

/-- Witness of claim C16 on the 2 by 2 grid with `beta = 2`, `gamma = 1`,
`theta = 0`, `lambda = 50`, `phi = 0` and a rendering that tells the finite
values from the others. -/
theorem saveToFile_wavelet_witness :
    ∃ m, wavelet (fin 2) (fin 1) (fin 0) (fin 50) (fin 0) (2 : Nat) (2 : Nat) = .ok m ∧
      saveToFile (fun v => if v.isFinite then "finite" else "other") true m
        = ⟨some (csvText (fun v => if v.isFinite then "finite" else "other") 2 (fun i j =>
            gabor (fin 1) (fin 0) (fin 50) (waveletSigma (fin 2) (fin 50)) (fin 0)
              ((i : Int) - Int.tdiv (2 : Nat) 2) ((j : Int) - Int.tdiv (2 : Nat) 2))), none⟩ :=
  saveToFile_wavelet _ (fin 2) (fin 1) (fin 0) (fin 50) (fin 0) 2 (by decide)

/-- Counterexample to claim C17 as stated.  With `lambda = 0` and
`sigma = 1` (and `gamma = 1`, `theta = 0`, `phi = 0`) `gabor` at `x = 1`,
`y = 0` is NaN, which is not a number of absolute value at most one. -/
theorem gabor_nan_not_bounded :
    gabor (fin 1) (fin 0) (fin 0) (fin 1) (fin 0) 1 0 = nan ∧
    ¬ ∃ r : ℝ, HasVal (gabor (fin 1) (fin 0) (fin 0) (fin 1) (fin 0) 1 0) r ∧ |r| ≤ 1 := by
  have h : gabor (fin 1) (fin 0) (fin 0) (fin 1) (fin 0) 1 0 = nan :=
    gabor_lambda_zero _ _ _ _ _ _ (by simp [isZero])
  refine ⟨h, ?_⟩
  rintro ⟨r, hr, _⟩
  rw [h] at hr
  exact absurd hr.1 (by simp [isFinite])

/-- Claim C17, amended.  For all real `gamma`, `theta`, `phi`, every real
`lambda` other than zero, every real `sigma` other than zero and all integers
`x`, `y`, the value of `gabor` is a real number of absolute value at most
one. -/
theorem gabor_bounded (g t l s p : ℝ) (x y : Int) (hl : l ≠ 0) (hs : s ≠ 0) :
    ∃ r : ℝ, gabor (fin g) (fin t) (fin l) (fin s) (fin p) x y = fin r ∧ |r| ≤ 1 :=
  gabor_abs_le_one g t l s p x y hl hs

/-- Witness of the amended claim C17 at `gamma = 1`, `theta = 0`,
`lambda = 50`, `sigma = 20`, `phi = 0`, `x = 3`, `y = 4`. -/
theorem gabor_bounded_witness :
    ∃ r : ℝ, gabor (fin 1) (fin 0) (fin 50) (fin 20) (fin 0) 3 4 = fin r ∧ |r| ≤ 1 :=
  gabor_bounded 1 0 50 20 0 3 4 (by norm_num) (by norm_num)

/-- Claim C18.  For all arguments, special values included, `gabor` at the
reflected pixel `(-x, -y)` with the phase `phi` is `gabor` at `(x, y)` with
the phase `-phi`; with `phi = 0` the kernel is even. -/
theorem gabor_point_reflection (gamma theta lambda sigma phi : GoFloat) (x y : Int) :
    gabor gamma theta lambda sigma phi (-x) (-y) = gabor gamma theta lambda sigma (-phi) x y ∧
    gabor gamma theta lambda sigma (fin 0) (-x) (-y)
      = gabor gamma theta lambda sigma (fin 0) x y :=
  ⟨gabor_reflect gamma theta lambda sigma (isNegOf_neg phi) x y,
   gabor_reflect gamma theta lambda sigma isNegOf_zero x y⟩

end Gabor

end
